import Mathlib

/-!
Verification development for `spikeinterface/sortingcomponents/features_from_peaks.py`.

The Python module has three parts, each embedded below over exact rational
arithmetic (`ℚ` in place of numpy floats, so equalities are exact):

* the parameter-resolution phase of `compute_features_from_peaks`
  (lines 67-132 of the source), including the sparsity-mask construction;
* the feature engine `compute_features` (lines 226-346);
* the chunk worker `_compute_features_from_peaks_chunk` (lines 188-223) and the
  surrounding chunked run.  The two collaborators that are not part of the
  source file (`get_chunk_with_margin` and `ChunkRecordingExecutor`) are
  modelled from the spec where marked.

Python dictionaries with a fixed key set are embedded as structures with
optional fields; numpy arrays as lists of lists (row major); numpy scalar
reductions as total list functions that agree with numpy on every input the
pipeline can reach.  The irrational `np.sqrt` used by `energy` and
`dist_com_vs_max_ptp_channel` is abstracted as an arbitrary function
`sqrtFn : ℚ → ℚ` applied to exact rational radicands; every theorem below is
proved for all `sqrtFn`, so nothing depends on its value.
-/

attribute [local semireducible] Rat.add Rat.mul Rat.inv Rat.sub

namespace FeaturesFromPeaks

/-- Feature kinds recognised by `features_from_peaks.py`. -/
inductive Feat where
  | amplitude
  | ptp
  | com
  | dist_com_vs_max_ptp_channel
  | energy
  deriving DecidableEq, Repr

/-- Values of the `peak_sign` parameter of the `amplitude` feature. -/
inductive Sign where
  | neg
  | pos
  | both
  deriving DecidableEq, Repr

/-- One per-feature parameter dictionary (an inner dict of the module-level
tables, lines 8-16).  Keys that the resolution phase adds later
(`nbefore`, `nafter`, `sparsity_mask`) are optional fields that start absent. -/
structure FeatParams where
  peak_sign : Option Sign := none
  ms_before : Option ℚ := none
  ms_after : Option ℚ := none
  local_radius_um : Option ℚ := none
  nbefore : Option ℤ := none
  nafter : Option ℤ := none
  sparsity_mask : Option (List (List Bool)) := none
  deriving DecidableEq, Repr

/-- Module-level default table `one_feature_per_peak_params` (lines 8-13). -/
def one_feature_per_peak_params : List (Feat × FeatParams) :=
  [(Feat.amplitude, { peak_sign := some Sign.neg }),
   (Feat.ptp, {}),
   (Feat.com, { local_radius_um := some 50 }),
   (Feat.dist_com_vs_max_ptp_channel, { local_radius_um := some 50 }),
   (Feat.energy, { local_radius_um := some 50 })]

/-- Module-level default table `n_chans_features_per_peak_params` (lines 15-16). -/
def n_chans_features_per_peak_params : List (Feat × FeatParams) :=
  [(Feat.amplitude, { peak_sign := some Sign.neg }),
   (Feat.ptp, {})]

/-- Python `int()` applied to a real value truncates toward zero. -/
def pyInt (q : ℚ) : ℤ := if q < 0 then ⌈q⌉ else ⌊q⌋

/-- The recording collaborator (spec section 6): sampling frequency, channel
count and geometry, one segment of `num_samples` samples, and the raw signal
`data t c` for `0 ≤ t < num_samples`. -/
structure Recording where
  sampling_frequency : ℚ
  num_channels : ℕ
  num_samples : ℤ
  channel_locations : List (List ℚ)
  channel_distances : List (List ℚ)
  data : ℤ → ℕ → ℚ

/-- One detected peak, as produced by `detect_peaks` (spec section 3). -/
structure Peak where
  segment_ind : ℕ
  sample_ind : ℤ
  channel_ind : ℕ
  amplitude : ℚ
  deriving DecidableEq, Repr

/-- User-supplied per-feature overrides (`feature_params` argument): the keys
present in the override dict for one feature. -/
structure FeatOverride where
  peak_sign : Option Sign := none
  ms_before : Option ℚ := none
  ms_after : Option ℚ := none
  local_radius_um : Option ℚ := none
  deriving DecidableEq, Repr

/-- Dict lookup `my_params[feature]`; the default is never used on reachable
inputs because the table the code copies always contains all five keys. -/
def lookupFP (es : List (Feat × FeatParams)) (f : Feat) : FeatParams :=
  (es.lookup f).getD {}

/-- Dict entry update: replace the inner dict bound to key `k`. -/
def updEntries (es : List (Feat × FeatParams)) (k : Feat) (g : FeatParams → FeatParams) :
    List (Feat × FeatParams) :=
  es.map (fun e => if e.1 = k then (e.1, g e.2) else e)

/-- Python `my_params[key].update(feature_params[key])` (line 73): keys present
in the override replace the defaults, absent keys keep them. -/
def applyOverride (p : FeatParams) (o : FeatOverride) : FeatParams :=
  { p with
    peak_sign := if o.peak_sign.isSome then o.peak_sign else p.peak_sign,
    ms_before := if o.ms_before.isSome then o.ms_before else p.ms_before,
    ms_after := if o.ms_after.isSome then o.ms_after else p.ms_after,
    local_radius_um := if o.local_radius_um.isSome then o.local_radius_um else p.local_radius_um }

/-- Fold a step function over a list inside `Except`, stopping at the first
error (explicit form of `List.foldlM`, used for every loop that can raise). -/
def exFold {σ α : Type} (f : σ → α → Except String σ) : σ → List α → Except String σ
  | s, [] => .ok s
  | s, a :: t =>
    match f s a with
    | .error e => .error e
    | .ok s' => exFold f s' t

/-- Map a fallible function over a list, stopping at the first error. -/
def exMap {α β : Type} (f : α → Except String β) : List α → Except String (List β)
  | [] => .ok []
  | a :: t =>
    match f a with
    | .error e => .error e
    | .ok b =>
      match exMap f t with
      | .error e => .error e
      | .ok bs => .ok (b :: bs)

/-- Message of the assertion at line 77. -/
def unknownFeatureMsg : String := "feature is not known..."

/-- Message of the assertion at line 81. -/
def missingComMsg : String := "some features requires CoM to be computed first"

/-- One iteration of the validation loop (lines 76-81): the feature must be a
key of the chosen table, `com` sets the `has_com` flag, and
`dist_com_vs_max_ptp_channel` asserts the flag. -/
def valStep (known : List Feat) (has_com : Bool) (f : Feat) : Except String Bool :=
  if f ∈ known then
    if f = Feat.com then .ok true
    else if f = Feat.dist_com_vs_max_ptp_channel then
      if has_com then .ok has_com else .error missingComMsg
    else .ok has_com
  else .error unknownFeatureMsg

/-- Validation loop of `compute_features_from_peaks` (lines 75-81), walking
the request list with the `has_com` flag initially clear. -/
def validateFeatures (known : List Feat) (fl : List Feat) : Except String Bool :=
  exFold (valStep known) false fl

/-- Sparsity-mask construction (lines 109-119).  The mask is allocated as
`np.zeros((peaks.size, num_chans))` and the loop then writes row `main_chan`
for every channel: an IndexError is raised as soon as `main_chan` reaches
`numPeaks`.  Row `main_chan` becomes `distance[main_chan][j] <= radius`. -/
def buildSparsityMask (chan_distances : List (List ℚ)) (radius : ℚ)
    (numPeaks numChans : ℕ) : Except String (List (List Bool)) :=
  exFold (fun rows main_chan =>
    if main_chan < rows.length then
      .ok (rows.set main_chan ((List.range numChans).map
        (fun j => decide ((chan_distances.getD main_chan []).getD j 0 ≤ radius))))
    else .error "IndexError: index out of bounds for sparsity_mask")
    (List.replicate numPeaks (List.replicate numChans false))
    (List.range numChans)

/-- Python `len(recording.get_channel_locations().shape)` (line 123): channel
locations form a rank-2 array (channels times coordinate axes), so the rank is
2 whatever the number of coordinate axes is. -/
def locationsNdim (_locs : List (List ℚ)) : ℕ := 2

/-- State threaded through the per-feature resolution loop (lines 83-123):
the inner dicts, the running `ms_before` / `ms_after` variables (which the
loop rebinds when a feature carries an override, line 90/97), the
`global_times` flag and the running maxima, plus the top-level keys the loop
may add. -/
structure ResolveSt where
  entries : List (Feat × FeatParams)
  msb : ℚ
  msa : ℚ
  global_times : Bool
  nbefore_max : ℤ
  nafter_max : ℤ
  chan_locs : Option (List (List ℚ))
  nb_com_dims : Option ℕ
  deriving Repr

/-- One iteration of the resolution loop (lines 88-123) for feature `f`. -/
def resolveStep (rec : Recording) (peaks_size : ℕ) (st : ResolveSt) (f : Feat) :
    Except String ResolveSt :=
  let p0 := lookupFP st.entries f
  let msb := match p0.ms_before with
    | some v => v
    | none => st.msb
  let gt1 := match p0.ms_before with
    | some _ => false
    | none => st.global_times
  let nbefore := pyInt (msb * rec.sampling_frequency / 1000)
  let msa := match p0.ms_after with
    | some v => v
    | none => st.msa
  let gt2 := match p0.ms_after with
    | some _ => false
    | none => gt1
  let nafter := pyInt (msa * rec.sampling_frequency / 1000)
  let entries1 := updEntries st.entries f
    (fun p => { p with nbefore := some nbefore, nafter := some nafter })
  let nbmax := if nbefore > st.nbefore_max then nbefore else st.nbefore_max
  let namax := if nafter > st.nafter_max then nafter else st.nafter_max
  let dims := if f = Feat.com then some (locationsNdim rec.channel_locations)
              else st.nb_com_dims
  if (lookupFP entries1 f).local_radius_um.isSome then
    match buildSparsityMask rec.channel_distances
      ((lookupFP entries1 f).local_radius_um.getD 0) peaks_size rec.num_channels with
    | .error e => .error e
    | .ok mask =>
      .ok { entries := updEntries entries1 f (fun p => { p with sparsity_mask := some mask }),
            msb := msb, msa := msa, global_times := gt2,
            nbefore_max := nbmax, nafter_max := namax,
            chan_locs := some rec.channel_locations, nb_com_dims := dims }
  else
    .ok { entries := entries1, msb := msb, msa := msa, global_times := gt2,
          nbefore_max := nbmax, nafter_max := namax, chan_locs := st.chan_locs,
          nb_com_dims := dims }

/-- The resolved `my_params` dictionary as it is handed to the workers. -/
structure MyParams where
  entries : List (Feat × FeatParams)
  global_times : Bool := true
  chan_locs : Option (List (List ℚ)) := none
  nb_com_dims : Option ℕ := none
  nbefore : Option ℤ := none
  nafter : Option ℤ := none
  smoothing : Option String := none
  one_feature_per_peak : Bool := true
  deriving Repr

/-- Merge of the user overrides into the (shared) inner dicts, lines 72-73. -/
def mergeOverrides (base : List (Feat × FeatParams))
    (feature_params : List (Feat × FeatOverride)) : List (Feat × FeatParams) :=
  feature_params.foldl (fun es ko => updEntries es ko.1 (fun p => applyOverride p ko.2)) base

/-- Parameter-resolution phase of `compute_features_from_peaks` (lines 67-132).

The two module-level tables are explicit arguments so that the aliasing
created by the shallow `dict.copy()` at line 68/70 is observable: `.copy()`
duplicates only the outer dict, the inner per-feature dicts stay shared, so
every in-place update the run performs on them (override merge, `nbefore` /
`nafter` assignment, `sparsity_mask` assignment) also mutates the module-level
table.  The `entries` field of the returned `MyParams` therefore is the state
of the module table after the run.

Line 67 is embedded exactly as written: the condition tests the truthiness of
the table `one_feature_per_peak_params` itself (a non-empty dict), not the
`one_feature_per_peak` flag.  The result is the resolved dictionary and the
margin `max(nbefore_max, nafter_max)` (line 132). -/
def compute_features_resolve
    (module_one_table module_nchans_table : List (Feat × FeatParams))
    (rec : Recording) (peaks_size : ℕ)
    (feature_list : List Feat) (feature_params : List (Feat × FeatOverride))
    (ms_before ms_after : ℚ) (one_feature_per_peak : Bool)
    (smoothing : Option String) : Except String (MyParams × ℤ) :=
  let base := if module_one_table.isEmpty then module_nchans_table else module_one_table
  let merged := mergeOverrides base feature_params
  match validateFeatures (merged.map Prod.fst) feature_list with
  | .error e => .error e
  | .ok _ =>
    match exFold (resolveStep rec peaks_size)
      { entries := merged, msb := ms_before, msa := ms_after, global_times := true,
        nbefore_max := 0, nafter_max := 0, chan_locs := none, nb_com_dims := none }
      feature_list with
    | .error e => .error e
    | .ok fin =>
      .ok ({ entries := fin.entries, global_times := fin.global_times,
             chan_locs := fin.chan_locs, nb_com_dims := fin.nb_com_dims,
             nbefore := some fin.nbefore_max, nafter := some fin.nafter_max,
             smoothing := smoothing, one_feature_per_peak := one_feature_per_peak },
           max fin.nbefore_max fin.nafter_max)

/-- Integer range `np.arange(a, b)`. -/
def intRange (a b : ℤ) : List ℤ :=
  (List.range (b - a).toNat).map (fun j => a + (j : ℤ))

/-- Window extraction `traces[sample + np.arange(-nbefore, nafter), :]`
(line 259/263) for one peak: a time-major list of rows of channel values. -/
def extractWin (buf : ℤ → ℕ → ℚ) (numChans : ℕ) (nb na : ℤ) (s : ℤ) : List (List ℚ) :=
  (intRange (-nb) na).map (fun o => (List.range numChans).map (fun c => buf (s + o) c))

/-- Everything `compute_features` reads from one local peak: its extracted
window for given `nbefore` / `nafter` (the engine touches the traces only
through those windows), its detection channel, and its stored amplitude. -/
structure PeakView where
  win : ℤ → ℤ → List (List ℚ)
  chan : ℕ
  amp : ℚ

/-- Output tensor of `compute_features`: `(peaks × features)` when
`one_feature_per_peak` holds, `(peaks × channels × features)` otherwise. -/
inductive FeatOut where
  | perPeak : List (List ℚ) → FeatOut
  | perChannel : List (List (List ℚ)) → FeatOut

/-- Reduction `np.min` over a numpy array flattened to a list (`0` only on the
empty input, on which numpy raises a zero-size-reduction `ValueError` instead;
empty inputs are reachable through zero-width resolved windows, so theorems
that assert normal completion keep these reductions on nonempty data, see
`reductionsNonempty`). -/
def qMin : List ℚ → ℚ
  | [] => 0
  | x :: t => t.foldl min x

/-- Reduction `np.max`, as `qMin`. -/
def qMax : List ℚ → ℚ
  | [] => 0
  | x :: t => t.foldl max x

/-- Peak-to-peak `np.ptp` of one channel column over the time axis. -/
def qPtp (l : List ℚ) : ℚ := qMax l - qMin l

/-- Reduction `np.sum`. -/
def qSum (l : List ℚ) : ℚ := l.foldl (fun a b => a + b) 0

/-- Column `c` of a time-major window. -/
def colOf (w : List (List ℚ)) (c : ℕ) : List ℚ := w.map (fun r => r.getD c 0)

/-- Count of set entries of a boolean mask row (`np.sum(mask_row)`). -/
def countTrue (row : List Bool) : ℕ := (row.filter (fun b => b)).length

/-- Indices of the set entries of a mask row (`np.nonzero(mask_row)`,
ascending). -/
def trueIdxs (row : List Bool) : List ℕ :=
  (List.range row.length).filter (fun i => row.getD i false)

/-- Tail recursion for `argmaxQ`. -/
def argmaxGo : List ℚ → ℚ → ℕ → ℕ → ℕ
  | [], _, best, _ => best
  | x :: t, bv, best, i =>
    if bv < x then argmaxGo t x i (i + 1) else argmaxGo t bv best (i + 1)

/-- First index of the maximum, `np.argmax` (0 on the empty list, on which
numpy raises instead; the empty list is reachable when a sparsity-mask row is
empty, which theorems asserting normal completion exclude, see
`reductionsNonempty`). -/
def argmaxQ : List ℚ → ℕ
  | [] => 0
  | x :: t => argmaxGo t x 0 1

/-- Grouped assignment pattern of the `energy` / `com` /
`dist_com_vs_max_ptp_channel` branches (lines 294-331): for every
`main_chan in range(num_chans)` the positions `idx` whose `channel_ind`
equals `main_chan` receive the group value `f main_chan idx_member`;
positions whose channel is not hit by the loop keep the initial zeros.
The vectorised group expressions of the source are elementwise, so the value
of position `i` in group `main_chan` is written `f main_chan i`. -/
def groupAssign {α : Type} (numChans : ℕ) (chans : List ℕ) (init : List α)
    (f : ℕ → ℕ → α) : List α :=
  (List.range numChans).foldl
    (fun acc mc => acc.mapIdx (fun i v => if chans.getD i (mc + 1) = mc then f mc i else v))
    init

/-- Mask row `feature_params[feature]['sparsity_mask'][main_chan]`. -/
def maskOf (cfg : MyParams) (f : Feat) (mc : ℕ) : List Bool :=
  ((lookupFP cfg.entries f).sparsity_mask.getD []).getD mc []

/-- Write `vals` into `row[start : start + len(vals)]`. -/
def setSlice (row : List ℚ) (start : ℕ) (vals : List ℚ) : List ℚ :=
  row.mapIdx (fun i x =>
    if start ≤ i ∧ i < start + vals.length then vals.getD (i - start) 0 else x)

/-- Value block one feature computes for a chunk: `(n,)` vector or `(n, k)`
matrix, aligned with the peak list. -/
inductive FeatVal where
  | vec : List ℚ → FeatVal
  | mat : List (List ℚ) → FeatVal

/-- State of the feature loop of `compute_features`: the output tensor being
filled, the running column offset `feature_idx`, and whether `wf` is still
`None` (true only before the first iteration, line 252/256). -/
structure EngineSt where
  out : FeatOut
  fidx : ℕ
  wfNone : Bool

/-- Row `i` of the in-progress per-peak matrix (used by the
`dist_com_vs_max_ptp_channel` branch to read the already written `com`
columns, line 330). -/
def rowAt : FeatOut → ℕ → List ℚ
  | .perPeak rows, i => rows.getD i []
  | .perChannel _, _ => []

/-- Message of the `np.abs(wf, axis=1)` call at line 279: `axis` is not a
keyword of the `absolute` ufunc, so the per-channel `both` branch raises. -/
def absAxisMsg : String := "TypeError: axis is an invalid keyword to ufunc absolute"

/-- Message raised when an assignment cannot broadcast its value block. -/
def broadcastMsg : String := "ValueError: could not broadcast input array"

/-- Message of the unreachable fall-through of the amplitude sign chain
(no branch taken leaves `features` unbound at line 336). -/
def unboundMsg : String := "UnboundLocalError: features"

/-- Energy kernel for peak `i` in channel group `mc` (line 300-301):
`np.linalg.norm(wf[i] * mask_row) / np.sqrt(nb_channels)` with the norm
squared expanded exactly. -/
def energyVal (sqrtFn : ℚ → ℚ) (numChans : ℕ) (row : List Bool)
    (w : List (List ℚ)) : ℚ :=
  sqrtFn (qSum (w.map (fun tr => qSum ((List.range numChans).map (fun c =>
    let v := tr.getD c 0 * (if row.getD c false then 1 else 0)
    v * v))))) / sqrtFn ((countTrue row : ℕ) : ℚ)

/-- Center-of-mass kernel for peak `i` in channel group `mc` (lines 311-315):
peak-to-peak per neighbour channel, then the ptp-weighted centroid of the
neighbour locations (`np.dot(wf_ptp, locs) / wf_ptp.sum()`). -/
def comVal (cfg : MyParams) (dims : ℕ) (ks : List ℕ) (w : List (List ℚ)) : List ℚ :=
  let ptps := ks.map (fun k => qPtp (colOf w k))
  let s := qSum ptps
  (List.range dims).map (fun d =>
    qSum (List.zipWith (fun pt k => pt * ((cfg.chan_locs.getD []).getD k []).getD d 0) ptps ks) / s)

/-- Kernel of `dist_com_vs_max_ptp_channel` for peak `i` (lines 325-331):
location of the neighbour channel with maximal ptp, Euclidean distance to the
`com` coordinates already written into the output row. -/
def distComVal (sqrtFn : ℚ → ℚ) (cfg : MyParams) (dims comStart : ℕ) (ks : List ℕ)
    (w : List (List ℚ)) (row : List ℚ) : ℚ :=
  let ptps := ks.map (fun k => qPtp (colOf w k))
  let kmax := ks.getD (argmaxQ ptps) 0
  let loc := (cfg.chan_locs.getD []).getD kmax []
  let comv := (row.drop comStart).take dims
  sqrtFn (qSum ((List.range dims).map (fun d =>
    let dv := loc.getD d 0 - comv.getD d 0
    dv * dv)))

/-- Assignment of one feature block into the output tensor (lines 334-344).
Scalar mode: non-`com` features fill one column, `com` fills
`nb_com_dims` consecutive columns.  Per-channel mode: the block is broadcast
against the `(peaks, channels)` slab exactly as numpy broadcasts the
assignment `out[:, :, idx] = features` (an `(n, C)` block is written
pointwise, an `(n, 1)` or `(n,)`-of-length-`C` block is broadcast, anything
else raises). -/
def writeVals (numChans dims : ℕ) (cfg : MyParams) (f : Feat) (st : EngineSt)
    (v : FeatVal) : Except String EngineSt :=
  if cfg.one_feature_per_peak then
    match st.out, decide (f = Feat.com), v with
    | .perPeak rows, false, .vec vals =>
      .ok { out := .perPeak (List.zipWith (fun row x => row.set st.fidx x) rows vals),
            fidx := st.fidx + 1, wfNone := false }
    | .perPeak rows, true, .mat m =>
      .ok { out := .perPeak (List.zipWith (fun row mr => setSlice row st.fidx mr) rows m),
            fidx := st.fidx + dims, wfNone := false }
    | _, _, _ => .error broadcastMsg
  else
    match st.out, v with
    | .perChannel rows, .mat m =>
      if m.length = 0 ∨ (m.headD []).length = numChans then
        .ok { out := .perChannel (List.zipWith
                (fun r3 mr => r3.mapIdx (fun c frow => frow.set st.fidx (mr.getD c 0))) rows m),
              fidx := st.fidx + 1, wfNone := false }
      else if (m.headD []).length = 1 then
        .ok { out := .perChannel (List.zipWith
                (fun r3 mr => r3.map (fun frow => frow.set st.fidx (mr.getD 0 0))) rows m),
              fidx := st.fidx + 1, wfNone := false }
      else .error broadcastMsg
    | .perChannel rows, .vec vals =>
      if vals.length = numChans then
        .ok { out := .perChannel (rows.map
                (fun r3 => r3.mapIdx (fun c frow => frow.set st.fidx (vals.getD c 0)))),
              fidx := st.fidx + 1, wfNone := false }
      else if vals.length = 1 then
        .ok { out := .perChannel (rows.map
                (fun r3 => r3.map (fun frow => frow.set st.fidx (vals.getD 0 0)))),
              fidx := st.fidx + 1, wfNone := false }
      else .error broadcastMsg
    | _, _ => .error broadcastMsg

/-- Window size selection of the feature loop (lines 256-263): the very first
iteration uses the top-level window when `global_times` holds, every other
case uses the per-feature window. -/
def selNb (cfg : MyParams) (f : Feat) (wfNone : Bool) : ℤ :=
  if cfg.global_times ∧ wfNone then cfg.nbefore.getD 0
  else (lookupFP cfg.entries f).nbefore.getD 0

/-- Companion of `selNb` for the trailing window. -/
def selNa (cfg : MyParams) (f : Feat) (wfNone : Bool) : ℤ :=
  if cfg.global_times ∧ wfNone then cfg.nafter.getD 0
  else (lookupFP cfg.entries f).nafter.getD 0

/-- One iteration of the feature loop of `compute_features` (lines 254-344)
for feature `f`: extract the windows (`wf` is built from the global window for
the very first feature when `global_times` holds, and from the per-feature
window otherwise, lines 256-263), compute the feature block, and assign it. -/
def engineStep (numChans : ℕ) (sqrtFn : ℚ → ℚ) (ps : List PeakView)
    (comStart dims : ℕ) (cfg : MyParams) (st : EngineSt) (f : Feat) :
    Except String EngineSt :=
  let fp := lookupFP cfg.entries f
  let nb := selNb cfg f st.wfNone
  let na := selNa cfg f st.wfNone
  let wfs := ps.map (fun p => p.win nb na)
  let wlen := (na + nb).toNat
  let chans := ps.map (fun p => p.chan)
  let vals : Except String FeatVal :=
    match f with
    | Feat.amplitude =>
      if wlen = 0 then .ok (.vec (ps.map (fun p => p.amp)))
      else if cfg.one_feature_per_peak then
        match fp.peak_sign with
        | some Sign.neg => .ok (.vec (wfs.map (fun w => qMin w.flatten)))
        | some Sign.pos => .ok (.vec (wfs.map (fun w => qMax w.flatten)))
        | some Sign.both => .ok (.vec (wfs.map (fun w => qMax (w.flatten.map (fun x => |x|)))))
        | none => .error unboundMsg
      else
        match fp.peak_sign with
        | some Sign.both => .error absAxisMsg
        | some Sign.neg =>
          .ok (.mat (wfs.map (fun w => (List.range numChans).map (fun c => qMin (colOf w c)))))
        | some Sign.pos =>
          .ok (.mat (wfs.map (fun w => (List.range numChans).map (fun c => qMax (colOf w c)))))
        | none => .error unboundMsg
    | Feat.ptp =>
      if cfg.one_feature_per_peak then
        .ok (.vec (wfs.map (fun w => qMax ((List.range numChans).map (fun c => qPtp (colOf w c))))))
      else
        .ok (.mat (wfs.map (fun w => (List.range numChans).map (fun c => qPtp (colOf w c)))))
    | Feat.energy =>
      .ok (.vec (groupAssign numChans chans (List.replicate ps.length 0)
        (fun mc i => energyVal sqrtFn numChans (maskOf cfg f mc) (wfs.getD i []))))
    | Feat.com =>
      .ok (.mat (groupAssign numChans chans (List.replicate ps.length (List.replicate dims 0))
        (fun mc i => comVal cfg dims (trueIdxs (maskOf cfg f mc)) (wfs.getD i []))))
    | Feat.dist_com_vs_max_ptp_channel =>
      .ok (.vec (groupAssign numChans chans (List.replicate ps.length 0)
        (fun mc i => distComVal sqrtFn cfg dims comStart (trueIdxs (maskOf cfg f mc))
          (wfs.getD i []) (rowAt st.out i))))
  match vals with
  | .error e => .error e
  | .ok v => writeVals numChans dims cfg f st v

/-- The feature engine `compute_features` (lines 226-346): allocate the output
tensor (`com` widens the scalar-mode row by `nb_com_dims - 1` extra columns,
lines 231-247), then run the feature loop. -/
def compute_features (numChans : ℕ) (sqrtFn : ℚ → ℚ) (ps : List PeakView)
    (fl : List Feat) (cfg : MyParams) : Except String FeatOut :=
  let dims := cfg.nb_com_dims.getD 0
  let featureSize := if Feat.com ∈ fl then fl.length + dims - 1 else fl.length
  let comStart := fl.indexOf Feat.com
  let out0 : FeatOut :=
    if cfg.one_feature_per_peak then
      .perPeak (List.replicate ps.length (List.replicate featureSize 0))
    else
      .perChannel (List.replicate ps.length
        (List.replicate numChans (List.replicate fl.length 0)))
  match exFold (engineStep numChans sqrtFn ps comStart dims cfg)
      { out := out0, fidx := 0, wfNone := true } fl with
  | .error e => .error e
  | .ok fin => .ok fin.out

/-- Signal read with the zero padding `get_chunk_with_margin(..., add_zeros=True)`
applies outside the recording. -/
def readPad (rec : Recording) (t : ℤ) (c : ℕ) : ℚ :=
  if 0 ≤ t ∧ t < rec.num_samples then rec.data t c else 0

/-- Modelled from the spec: `get_chunk_with_margin` (imported from
`spikeinterface.core`, not part of the source file) with `add_zeros=True`
returns the samples `start_frame - margin .. end_frame + margin` as one
buffer, zero-padded where it leaves the recording, with
`left_margin = margin`.  The buffer is represented by its read function at
local index `l`; the engine only ever evaluates it inside the buffer because
the margin chosen at line 132 dominates every feature window. -/
def chunkTraces (rec : Recording) (start_frame margin : ℤ) : ℤ → ℕ → ℚ :=
  fun l c => readPad rec (start_frame - margin + l) c

/-- Binary search `np.searchsorted(keys, v)` (side left) on a sorted integer
key list: index of the first key `≥ v`. -/
def ssLeft (l : List ℤ) (v : ℤ) : ℕ := l.findIdx (fun x => decide (v ≤ x))

/-- Binary search on the (sorted) segment indices. -/
def ssLeftN (l : List ℕ) (v : ℕ) : ℕ := l.findIdx (fun x => decide (v ≤ x))

/-- View of one local peak handed to the engine by the chunk worker
(line 213-214): window extraction from the margin-padded chunk buffer at the
rebased sample index, detection channel, stored amplitude. -/
def viewOfLocalPeak (buf : ℤ → ℕ → ℚ) (numChans : ℕ) (localSample : ℤ)
    (chan : ℕ) (amp : ℚ) : PeakView :=
  { win := fun nb na => extractWin buf numChans nb na localSample,
    chan := chan, amp := amp }

/-- The chunk worker `_compute_features_from_peaks_chunk` (lines 188-223):
load the margin-padded traces, slice the peaks of this segment and sample
range with two binary searches each, rebase their sample indices to the
buffer (`sample_ind -= start_frame - left_margin`), and run the engine. -/
def compute_features_chunk (rec : Recording) (peaks : List Peak) (margin : ℤ)
    (fl : List Feat) (cfg : MyParams) (sqrtFn : ℚ → ℚ)
    (segment_index : ℕ) (start_frame end_frame : ℤ) : Except String FeatOut :=
  let traces := chunkTraces rec start_frame margin
  let segs := peaks.map (fun p => p.segment_ind)
  let i0 := ssLeftN segs segment_index
  let i1 := ssLeftN segs (segment_index + 1)
  let inSeg := (peaks.drop i0).take (i1 - i0)
  let samples := inSeg.map (fun p => p.sample_ind)
  let j0 := ssLeft samples start_frame
  let j1 := ssLeft samples end_frame
  let localPeaks := (inSeg.drop j0).take (j1 - j0)
  let views := localPeaks.map (fun p =>
    viewOfLocalPeak traces rec.num_channels (p.sample_ind - (start_frame - margin))
      p.channel_ind p.amplitude)
  compute_features rec.num_channels sqrtFn views fl cfg

/-- Concatenation `np.concatenate(per_chunk_results)` along the first axis
(line 154); raises on an empty list or on mismatched ranks, as numpy does. -/
def npConcat : List FeatOut → Except String FeatOut
  | [] => .error "ValueError: need at least one array to concatenate"
  | o :: rest =>
    exFold (fun acc n =>
      match acc, n with
      | .perPeak a, .perPeak b => .ok (.perPeak (a ++ b))
      | .perChannel a, .perChannel b => .ok (.perChannel (a ++ b))
      | _, _ => .error "ValueError: all the input arrays must have same number of dimensions")
      o rest

/-- Consecutive chunk ranges cut at the given boundaries. -/
def chunkPairs (bounds : List ℤ) : List (ℤ × ℤ) := bounds.zip bounds.tail

/-- The full `compute_features_from_peaks` run (lines 19-156) for a
single-segment recording.  Modelled from the spec: `ChunkRecordingExecutor`
(imported from `spikeinterface.core.job_tools`, not part of the source file)
splits segment 0 at the given chunk boundaries, runs the chunk worker on each
chunk, and hands the per-chunk outputs back in chunk order; the run then
concatenates them (line 154). -/
def compute_features_from_peaks
    (module_one_table module_nchans_table : List (Feat × FeatParams))
    (rec : Recording) (peaks : List Peak)
    (fl : List Feat) (overrides : List (Feat × FeatOverride))
    (ms_before ms_after : ℚ) (one_feature_per_peak : Bool) (smoothing : Option String)
    (sqrtFn : ℚ → ℚ) (bounds : List ℤ) : Except String FeatOut :=
  match compute_features_resolve module_one_table module_nchans_table rec peaks.length
      fl overrides ms_before ms_after one_feature_per_peak smoothing with
  | .error e => .error e
  | .ok (cfg, margin) =>
    match exMap (fun se => compute_features_chunk rec peaks margin fl cfg sqrtFn 0 se.1 se.2)
        (chunkPairs bounds) with
    | .error e => .error e
    | .ok outs => npConcat outs

/-! Concrete instances used by the evaluation theorems. -/

/-- Two-channel recording with 2-D geometry, 4 samples, flat signal. -/
def exRec : Recording :=
  { sampling_frequency := 10000, num_channels := 2, num_samples := 4,
    channel_locations := [[0, 0], [1, 0]],
    channel_distances := [[0, 1], [1, 0]],
    data := fun _ _ => 0 }

/-- The same recording sampled at 1900 Hz. -/
def exRec1900 : Recording := { exRec with sampling_frequency := 1900 }

/-- The same recording with 3-D channel locations. -/
def exRec3d : Recording := { exRec with channel_locations := [[0, 0, 0], [1, 0, 0]] }

/-- Resolved `nbefore` of feature `f`, if resolution succeeded. -/
def nbeforeOf (r : Except String (MyParams × ℤ)) (f : Feat) : Option ℤ :=
  match r with
  | .ok (p, _) => (lookupFP p.entries f).nbefore
  | .error _ => none

/-- Resolved `nafter` of feature `f`, if resolution succeeded. -/
def nafterOf (r : Except String (MyParams × ℤ)) (f : Feat) : Option ℤ :=
  match r with
  | .ok (p, _) => (lookupFP p.entries f).nafter
  | .error _ => none

/-- Recorded `nb_com_dims`, if resolution succeeded. -/
def nbComDimsOf (r : Except String (MyParams × ℤ)) : Option ℕ :=
  match r with
  | .ok (p, _) => p.nb_com_dims
  | .error _ => none

/-- Resolved `global_times` flag, if resolution succeeded. -/
def globalTimesOf (r : Except String (MyParams × ℤ)) : Option Bool :=
  match r with
  | .ok (p, _) => some p.global_times
  | .error _ => none

/-- Inner-dict table after a run (because of the shallow `dict.copy()` these
are the module-level inner dicts, see `compute_features_resolve`). -/
def entriesOf (r : Except String (MyParams × ℤ)) : List (Feat × FeatParams) :=
  match r with
  | .ok (p, _) => p.entries
  | .error _ => []

/-- Claim C2: requesting `com` with `one_feature_per_peak = False` is supposed
to fail with the unknown-feature error, but line 67 tests the truthiness of
the module-level table `one_feature_per_peak_params` (a non-empty dict)
instead of the `one_feature_per_peak` flag, so the full five-feature table is
always selected and the request is accepted: resolution succeeds. -/
theorem c2_per_channel_mode_accepts_com :
    (compute_features_resolve one_feature_per_peak_params n_chans_features_per_peak_params
      exRec 2 [Feat.com] [] 1 1 false none).isOk = true := rfl

/-- Claim C4 counterexample: with the request `[dist_com_vs_max_ptp_channel,
com]` the dependency assertion fires even though `com` is present in the same
request, because the `has_com` flag is checked in list order (line 75-81);
the claim states that no dependency error is raised whenever `com` appears
anywhere in the list. -/
theorem c4_order_counterexample :
    compute_features_resolve one_feature_per_peak_params n_chans_features_per_peak_params
      exRec 2 [Feat.dist_com_vs_max_ptp_channel, Feat.com] [] 1 1 true none
      = .error missingComMsg
    ∧ Feat.com ∈ [Feat.dist_com_vs_max_ptp_channel, Feat.com] :=
  ⟨rfl, by simp⟩

/-- Claim C3 counterexample: requesting `[amplitude, ptp]` where only
`amplitude` overrides `ms_before` to 2 ms at 10 kHz: the claim says `ptp`
keeps the global default window (1 ms, 10 samples), but line 90 rebinds the
running `ms_before` variable, so `ptp` resolves to 20 samples. -/
theorem c3_override_leak_counterexample :
    nbeforeOf (compute_features_resolve one_feature_per_peak_params
        n_chans_features_per_peak_params exRec 2 [Feat.amplitude, Feat.ptp]
        [(Feat.amplitude, { ms_before := some 2 })] 1 1 true none) Feat.ptp = some 20
    ∧ pyInt (1 * exRec.sampling_frequency / 1000) = 10 :=
  ⟨rfl, by decide⟩

/-- Claim C5 counterexample: at 1900 Hz the default 1 ms window resolves to
`int(1.9) = 1` sample (line 93), while the claim demands round-to-nearest
`round(1.9) = 2`. -/
theorem c5_round_counterexample :
    nbeforeOf (compute_features_resolve one_feature_per_peak_params
        n_chans_features_per_peak_params exRec1900 2 [Feat.ptp] [] 1 1 true none) Feat.ptp
      = some 1
    ∧ round ((1 : ℚ) * exRec1900.sampling_frequency / 1000) = 2 :=
  ⟨rfl, by norm_num [exRec1900, exRec, round_eq]⟩

/-- Claim C6: the mask is allocated with `peaks.size` rows instead of
`num_chans` (line 111).  With 1 peak and 2 channels the builder raises an
IndexError; with 3 peaks and 2 channels it returns a `3 × 2` mask whose extra
row is all false, not the claimed `channel × channel` mask. -/
theorem c6_sparsity_mask_shape_bug :
    buildSparsityMask [[0, 1], [1, 0]] 50 1 2
      = .error "IndexError: index out of bounds for sparsity_mask"
    ∧ buildSparsityMask [[0, 1], [1, 0]] 50 3 2
      = .ok [[true, true], [true, true], [false, false]] :=
  ⟨rfl, rfl⟩

/-- Claim C7: with 3-D channel locations the recorded `nb_com_dims` is still
2, because line 123 takes `len(locations.shape)` (the array rank) instead of
the number of coordinate axes `locations.shape[1] = 3`. -/
theorem c7_nb_com_dims_is_array_rank :
    nbComDimsOf (compute_features_resolve one_feature_per_peak_params
        n_chans_features_per_peak_params exRec3d 2 [Feat.com] [] 1 1 true none) = some 2
    ∧ (exRec3d.channel_locations.headD []).length = 3 :=
  ⟨rfl, rfl⟩

/-- Claim C10: the shallow `my_params = one_feature_per_peak_params.copy()`
(line 68) shares the inner dicts with the module-level table, so a run with a
`peak_sign` override rewrites the module default: after run 1 the table entry
for `amplitude` holds `pos` (default was `neg`), and a second run with no
overrides resolves `amplitude` with `pos`. -/
theorem c10_shallow_copy_mutates_defaults :
    (lookupFP (entriesOf (compute_features_resolve one_feature_per_peak_params
        n_chans_features_per_peak_params exRec 2 [Feat.amplitude]
        [(Feat.amplitude, { peak_sign := some Sign.pos })] 1 1 true none))
      Feat.amplitude).peak_sign = some Sign.pos
    ∧ (lookupFP one_feature_per_peak_params Feat.amplitude).peak_sign = some Sign.neg
    ∧ (lookupFP (entriesOf (compute_features_resolve
        (entriesOf (compute_features_resolve one_feature_per_peak_params
          n_chans_features_per_peak_params exRec 2 [Feat.amplitude]
          [(Feat.amplitude, { peak_sign := some Sign.pos })] 1 1 true none))
        n_chans_features_per_peak_params exRec 2 [Feat.amplitude] [] 1 1 true none))
      Feat.amplitude).peak_sign = some Sign.pos :=
  ⟨rfl, rfl, rfl⟩

/-- Two-channel recording with a non-trivial signal, 6 samples at 2 kHz. -/
def exRecD : Recording :=
  { sampling_frequency := 2000, num_channels := 2, num_samples := 6,
    channel_locations := [[0, 0], [3, 0]],
    channel_distances := [[0, 3], [3, 0]],
    data := fun t c => (t : ℚ) + 10 * (c : ℚ) + (if t = 2 then -5 else 0) }

/-- Three sorted peaks on segment 0 of `exRecD`. -/
def exPeaks : List Peak :=
  [{ segment_ind := 0, sample_ind := 1, channel_ind := 0, amplitude := -7 },
   { segment_ind := 0, sample_ind := 2, channel_ind := 1, amplitude := -3 },
   { segment_ind := 0, sample_ind := 4, channel_ind := 0, amplitude := -1 }]

/-- Claim C8: `amplitude` with `peak_sign = 'both'` in per-channel aggregation
mode is supposed to reduce to one max-abs value per channel, but line 279
spells `np.max(np.abs(wf, axis=1))`, passing `axis` to the `absolute` ufunc:
the whole run raises a TypeError instead of returning a tensor. -/
theorem c8_per_channel_both_raises :
    compute_features_from_peaks one_feature_per_peak_params n_chans_features_per_peak_params
      exRecD exPeaks [Feat.amplitude] [(Feat.amplitude, { peak_sign := some Sign.both })]
      1 1 false none (fun q => q) [0, 6] = .error absAxisMsg := rfl

/-- Helper for C9: setting column 0 of fresh 1-column rows writes the value
list as singleton rows. -/
theorem zipWith_set_singleton {α : Type} (g : α → ℚ) (l : List α) :
    List.zipWith (fun row x => row.set 0 x) (List.replicate l.length ([0] : List ℚ))
      (l.map g) = l.map (fun a => [g a]) := by
  induction l with
  | nil => rfl
  | cons a t ih => simp [List.replicate_succ, ih]

/-- Claim C9: for every peak list, when `amplitude` is the requested feature
and the resolved window is zero-width (`nbefore = nafter = 0`), the engine
falls back to the stored per-peak amplitude (line 266-267): the output is
exactly one row `[amplitude]` per peak, in input order. -/
theorem c9_zero_width_amplitude (numChans : ℕ) (sqrtFn : ℚ → ℚ) (ps : List PeakView)
    (cfg : MyParams) (hmode : cfg.one_feature_per_peak = true)
    (hgt : cfg.global_times = true) (hnb : cfg.nbefore.getD 0 = 0)
    (hna : cfg.nafter.getD 0 = 0) :
    compute_features numChans sqrtFn ps [Feat.amplitude] cfg
      = .ok (.perPeak (ps.map (fun p => [p.amp]))) := by
  simp only [compute_features, exFold, engineStep, writeVals, selNb, selNa, hmode, hgt,
    hnb, hna]
  simp only [List.mem_singleton, reduceCtorEq, if_false, List.indexOf]
  norm_num
  exact zipWith_set_singleton (fun p => p.amp) ps

/-- Witness for C9 at a concrete input. -/
def exView : PeakView := { win := fun _ _ => [], chan := 0, amp := -7 }

/-- Concrete zero-width configuration for the C9 witness. -/
def exCfg9 : MyParams :=
  { entries := one_feature_per_peak_params, nbefore := some 0, nafter := some 0 }

/-- Witness: C9 applied to one concrete peak view. -/
theorem c9_zero_width_amplitude_witness :
    compute_features 2 (fun q => q) [exView] [Feat.amplitude] exCfg9
      = .ok (.perPeak [[-7]]) :=
  c9_zero_width_amplitude 2 (fun q => q) [exView] exCfg9 rfl rfl rfl rfl

/-! Analysis of the resolution loop, used by the C3 / C4 / C5 theorems. -/

theorem lookup_pair_cons (a : Feat) (b : FeatParams) (t : List (Feat × FeatParams))
    (f : Feat) :
    List.lookup f ((a, b) :: t) = if a = f then some b else List.lookup f t := by
  by_cases h : a = f
  · simp [List.lookup, h]
  · have hba : (f == a) = false := beq_eq_false_iff_ne.mpr (fun hh => h hh.symm)
    simp [List.lookup, h, hba]

theorem updEntries_cons (a : Feat) (b : FeatParams) (t : List (Feat × FeatParams))
    (k : Feat) (g : FeatParams → FeatParams) :
    updEntries ((a, b) :: t) k g
      = (if a = k then (a, g b) else (a, b)) :: updEntries t k g := by
  simp only [updEntries, List.map_cons]

theorem lookup_updEntries_ne {es : List (Feat × FeatParams)} {k f : Feat}
    (g : FeatParams → FeatParams) (h : f ≠ k) :
    (updEntries es k g).lookup f = es.lookup f := by
  induction es with
  | nil => rfl
  | cons e t ih =>
    obtain ⟨a, b⟩ := e
    rw [updEntries_cons]
    by_cases ha : a = k
    · subst ha
      rw [if_pos rfl, lookup_pair_cons, lookup_pair_cons, if_neg (fun hh => h hh.symm),
        if_neg (fun hh => h hh.symm), ih]
    · rw [if_neg ha, lookup_pair_cons, lookup_pair_cons]
      by_cases haf : a = f
      · simp [haf]
      · simp [haf, ih]

theorem lookup_updEntries_eq {es : List (Feat × FeatParams)} {k : Feat}
    (g : FeatParams → FeatParams) :
    (updEntries es k g).lookup k = (es.lookup k).map g := by
  induction es with
  | nil => rfl
  | cons e t ih =>
    obtain ⟨a, b⟩ := e
    rw [updEntries_cons]
    by_cases ha : a = k
    · subst ha
      rw [if_pos rfl, lookup_pair_cons, lookup_pair_cons, if_pos rfl, if_pos rfl]
      simp
    · rw [if_neg ha, lookup_pair_cons, lookup_pair_cons, if_neg ha, if_neg ha, ih]

theorem lookupFP_updEntries_ne {es : List (Feat × FeatParams)} {k f : Feat}
    (g : FeatParams → FeatParams) (h : f ≠ k) :
    lookupFP (updEntries es k g) f = lookupFP es f := by
  simp [lookupFP, lookup_updEntries_ne g h]

theorem updEntries_fst (es : List (Feat × FeatParams)) (k : Feat)
    (g : FeatParams → FeatParams) :
    (updEntries es k g).map Prod.fst = es.map Prod.fst := by
  induction es with
  | nil => rfl
  | cons e t ih =>
    simp only [updEntries, List.map_cons] at ih ⊢
    by_cases he : e.1 = k <;> simp [he, ih]

theorem mergeOverrides_fst (base : List (Feat × FeatParams))
    (o : List (Feat × FeatOverride)) :
    (mergeOverrides base o).map Prod.fst = base.map Prod.fst := by
  induction o generalizing base with
  | nil => rfl
  | cons e t ih => simp [mergeOverrides] at ih ⊢; rw [ih, updEntries_fst]

/-- Every feature kind is a key of the scalar-mode default table. -/
theorem mem_one_table_keys (f : Feat) : f ∈ one_feature_per_peak_params.map Prod.fst := by
  cases f <;> simp [one_feature_per_peak_params]

theorem updEntries_updEntries (es : List (Feat × FeatParams)) (k : Feat)
    (g1 g2 : FeatParams → FeatParams) :
    updEntries (updEntries es k g1) k g2 = updEntries es k (fun p => g2 (g1 p)) := by
  induction es with
  | nil => rfl
  | cons e t ih =>
    obtain ⟨a, b⟩ := e
    rw [updEntries_cons]
    by_cases ha : a = k
    · rw [if_pos ha, updEntries_cons, if_pos ha, updEntries_cons, if_pos ha, ih]
    · rw [if_neg ha, updEntries_cons, if_neg ha, updEntries_cons, if_neg ha, ih]

/-- Shape of a successful `resolveStep`: the new table is the old one with the
entry of `f` rewritten by a function that only touches `nbefore`, `nafter`
and `sparsity_mask`. -/
theorem resolveStep_entries_shape {rec : Recording} {n : ℕ} {st st' : ResolveSt} {f : Feat}
    (h : resolveStep rec n st f = .ok st') :
    ∃ g : FeatParams → FeatParams,
      (∀ p, (g p).ms_before = p.ms_before ∧ (g p).ms_after = p.ms_after ∧
            (g p).peak_sign = p.peak_sign) ∧
      st'.entries = updEntries st.entries f g := by
  unfold resolveStep at h
  simp only [] at h
  repeat' split at h
  all_goals
    first
      | exact Except.noConfusion h
      | (injection h with h2
         subst h2
         dsimp only
         first
           | (refine ⟨_, ?_, updEntries_updEntries _ _ _ _⟩
              exact fun p => ⟨rfl, rfl, rfl⟩)
           | (refine ⟨_, ?_, rfl⟩
              exact fun p => ⟨rfl, rfl, rfl⟩))

/-- A successful `resolveStep` keeps `ms_before`, `ms_after` and `peak_sign`
of every inner dict. -/
theorem resolveStep_pres {rec : Recording} {n : ℕ} {st st' : ResolveSt} {f : Feat}
    (h : resolveStep rec n st f = .ok st') (q : Feat) :
    (lookupFP st'.entries q).ms_before = (lookupFP st.entries q).ms_before ∧
    (lookupFP st'.entries q).ms_after = (lookupFP st.entries q).ms_after ∧
    (lookupFP st'.entries q).peak_sign = (lookupFP st.entries q).peak_sign := by
  obtain ⟨g, hg, hent⟩ := resolveStep_entries_shape h
  rw [hent]
  by_cases hq : q = f
  · subst hq
    unfold lookupFP
    rw [lookup_updEntries_eq]
    cases hl : st.entries.lookup q
    · simp
    · rename_i v
      simpa using hg v
  · rw [lookupFP_updEntries_ne _ hq]
    exact ⟨rfl, rfl, rfl⟩

/-- The whole resolution loop keeps `ms_before`, `ms_after` and `peak_sign`
of every inner dict. -/
theorem exFold_resolve_pres {rec : Recording} {n : ℕ} {st st' : ResolveSt}
    {fl : List Feat} (h : exFold (resolveStep rec n) st fl = .ok st') (q : Feat) :
    (lookupFP st'.entries q).ms_before = (lookupFP st.entries q).ms_before ∧
    (lookupFP st'.entries q).ms_after = (lookupFP st.entries q).ms_after ∧
    (lookupFP st'.entries q).peak_sign = (lookupFP st.entries q).peak_sign := by
  induction fl generalizing st with
  | nil =>
    cases h
    exact ⟨rfl, rfl, rfl⟩
  | cons f t ih =>
    unfold exFold at h
    split at h
    · exact absurd h (by simp)
    · rename_i st1 hst1
      obtain ⟨h1, h2, h3⟩ := resolveStep_pres hst1 q
      obtain ⟨g1, g2, g3⟩ := ih h
      exact ⟨g1.trans h1, g2.trans h2, g3.trans h3⟩

/-- The value held by the running `ms_before` loop variable after the listed
features have been processed: the most recent per-feature override, or the
start value if none occurred. -/
def runningMsBefore (entries : List (Feat × FeatParams)) (d : ℚ) (pref : List Feat) : ℚ :=
  pref.foldl (fun acc f =>
    match (lookupFP entries f).ms_before with
    | some v => v
    | none => acc) d

/-- The running `ms_after` loop variable, as `runningMsBefore`. -/
def runningMsAfter (entries : List (Feat × FeatParams)) (d : ℚ) (pref : List Feat) : ℚ :=
  pref.foldl (fun acc f =>
    match (lookupFP entries f).ms_after with
    | some v => v
    | none => acc) d

theorem runningMsBefore_cons (e : List (Feat × FeatParams)) (d : ℚ) (f : Feat)
    (t : List Feat) :
    runningMsBefore e d (f :: t)
      = runningMsBefore e (match (lookupFP e f).ms_before with
                           | some v => v
                           | none => d) t := rfl

theorem runningMsAfter_cons (e : List (Feat × FeatParams)) (d : ℚ) (f : Feat)
    (t : List Feat) :
    runningMsAfter e d (f :: t)
      = runningMsAfter e (match (lookupFP e f).ms_after with
                          | some v => v
                          | none => d) t := rfl

theorem runningMsBefore_congr {e1 e2 : List (Feat × FeatParams)} (d : ℚ) (l : List Feat)
    (h : ∀ f, (lookupFP e1 f).ms_before = (lookupFP e2 f).ms_before) :
    runningMsBefore e1 d l = runningMsBefore e2 d l := by
  induction l generalizing d with
  | nil => rfl
  | cons f t ih =>
    unfold runningMsBefore at ih ⊢
    simp only [List.foldl_cons, h f]
    exact ih _

theorem runningMsAfter_congr {e1 e2 : List (Feat × FeatParams)} (d : ℚ) (l : List Feat)
    (h : ∀ f, (lookupFP e1 f).ms_after = (lookupFP e2 f).ms_after) :
    runningMsAfter e1 d l = runningMsAfter e2 d l := by
  induction l generalizing d with
  | nil => rfl
  | cons f t ih =>
    unfold runningMsAfter at ih ⊢
    simp only [List.foldl_cons, h f]
    exact ih _

theorem runningMsBefore_of_none {e : List (Feat × FeatParams)} (d : ℚ) (l : List Feat)
    (h : ∀ f ∈ l, (lookupFP e f).ms_before = none) :
    runningMsBefore e d l = d := by
  induction l generalizing d with
  | nil => rfl
  | cons f t ih =>
    unfold runningMsBefore at ih ⊢
    simp only [List.foldl_cons, h f (by simp)]
    exact ih _ (fun q hq => h q (by simp [hq]))

theorem runningMsAfter_of_none {e : List (Feat × FeatParams)} (d : ℚ) (l : List Feat)
    (h : ∀ f ∈ l, (lookupFP e f).ms_after = none) :
    runningMsAfter e d l = d := by
  induction l generalizing d with
  | nil => rfl
  | cons f t ih =>
    unfold runningMsAfter at ih ⊢
    simp only [List.foldl_cons, h f (by simp)]
    exact ih _ (fun q hq => h q (by simp [hq]))

set_option maxHeartbeats 1000000 in
/-- Evolution of the running loop variables and the `global_times` flag over
one `resolveStep`. -/
theorem resolveStep_scalars {rec : Recording} {n : ℕ} {st st' : ResolveSt} {f : Feat}
    (h : resolveStep rec n st f = .ok st') :
    st'.msb = (match (lookupFP st.entries f).ms_before with
               | some v => v
               | none => st.msb) ∧
    st'.msa = (match (lookupFP st.entries f).ms_after with
               | some v => v
               | none => st.msa) ∧
    st'.global_times = (st.global_times
      && (lookupFP st.entries f).ms_before.isNone
      && (lookupFP st.entries f).ms_after.isNone) := by
  unfold resolveStep at h
  simp only [] at h
  repeat' split at h
  all_goals
    first
      | exact Except.noConfusion h
      | (injection h with h2
         subst h2
         subst_vars
         refine ⟨?_, ?_, ?_⟩ <;>
           simp only [*, Option.isNone_some, Option.isNone_none, Bool.and_true,
             Bool.and_false, Bool.true_and, Bool.false_and])

set_option maxHeartbeats 1000000 in
/-- The resolved `nbefore` / `nafter` the step writes into the entry of the
feature it processes. -/
theorem resolveStep_nbefore_self {rec : Recording} {n : ℕ} {st st' : ResolveSt} {f : Feat}
    (h : resolveStep rec n st f = .ok st') (hkey : (st.entries.lookup f).isSome) :
    (lookupFP st'.entries f).nbefore
      = some (pyInt ((match (lookupFP st.entries f).ms_before with
                      | some v => v
                      | none => st.msb) * rec.sampling_frequency / 1000)) ∧
    (lookupFP st'.entries f).nafter
      = some (pyInt ((match (lookupFP st.entries f).ms_after with
                      | some v => v
                      | none => st.msa) * rec.sampling_frequency / 1000)) := by
  obtain ⟨v, hv⟩ := Option.isSome_iff_exists.mp hkey
  unfold resolveStep at h
  simp only [] at h
  repeat' split at h
  all_goals
    first
      | exact Except.noConfusion h
      | (injection h with h2
         subst h2
         dsimp only
         unfold lookupFP
         rw [lookup_updEntries_eq]
         first
           | (rw [lookup_updEntries_eq, hv]; simp_all)
           | (rw [hv]; simp_all))

/-- `resolveStep` does not touch the `nbefore` / `nafter` of other entries. -/
theorem resolveStep_nbefore_ne {rec : Recording} {n : ℕ} {st st' : ResolveSt} {f q : Feat}
    (h : resolveStep rec n st f = .ok st') (hq : q ≠ f) :
    (lookupFP st'.entries q).nbefore = (lookupFP st.entries q).nbefore ∧
    (lookupFP st'.entries q).nafter = (lookupFP st.entries q).nafter := by
  obtain ⟨g, _, hent⟩ := resolveStep_entries_shape h
  rw [hent, lookupFP_updEntries_ne _ hq]
  exact ⟨rfl, rfl⟩

/-- `resolveStep` keeps every key of the table. -/
theorem resolveStep_key {rec : Recording} {n : ℕ} {st st' : ResolveSt} {f q : Feat}
    (h : resolveStep rec n st f = .ok st') (hq : (st.entries.lookup q).isSome) :
    (st'.entries.lookup q).isSome := by
  obtain ⟨g, _, hent⟩ := resolveStep_entries_shape h
  rw [hent]
  by_cases hqf : q = f
  · subst hqf
    rw [lookup_updEntries_eq]
    simpa using hq
  · rw [lookup_updEntries_ne _ hqf]
    exact hq

theorem exFold_cons {σ α : Type} (f : σ → α → Except String σ) (s : σ) (a : α)
    (t : List α) :
    exFold f s (a :: t)
      = match f s a with
        | .error e => .error e
        | .ok s' => exFold f s' t := rfl

/-- Splitting an `exFold` at a list append. -/
theorem exFold_append {σ α : Type} (f : σ → α → Except String σ) (s : σ)
    (l1 l2 : List α) :
    exFold f s (l1 ++ l2)
      = match exFold f s l1 with
        | .error e => .error e
        | .ok s1 => exFold f s1 l2 := by
  induction l1 generalizing s with
  | nil => rfl
  | cons a t ih =>
    rw [List.cons_append, exFold_cons, exFold_cons]
    cases f s a
    · rfl
    · exact ih _

theorem list_all_ext {α : Type} (l : List α) (p q : α → Bool) (h : ∀ x, p x = q x) :
    l.all p = l.all q := by
  induction l with
  | nil => rfl
  | cons a t ih => simp [List.all_cons, h a, ih]

/-- Over the whole loop the running `ms_before` / `ms_after` variables hold
the most recent override, and `global_times` clears iff any processed feature
carries an override. -/
theorem exFold_resolve_scalars {rec : Recording} {n : ℕ} {st st' : ResolveSt}
    {fl : List Feat} (h : exFold (resolveStep rec n) st fl = .ok st') :
    st'.msb = runningMsBefore st.entries st.msb fl ∧
    st'.msa = runningMsAfter st.entries st.msa fl ∧
    st'.global_times = (st.global_times
      && fl.all (fun f => (lookupFP st.entries f).ms_before.isNone
                          && (lookupFP st.entries f).ms_after.isNone)) := by
  induction fl generalizing st with
  | nil =>
    cases h
    simp [runningMsBefore, runningMsAfter]
  | cons f t ih =>
    unfold exFold at h
    split at h
    · exact absurd h (by simp)
    · rename_i st1 hst1
      obtain ⟨m1, m2, m3⟩ := resolveStep_scalars hst1
      obtain ⟨i1, i2, i3⟩ := ih h
      have pres := fun q => resolveStep_pres hst1 q
      refine ⟨?_, ?_, ?_⟩
      · rw [i1, runningMsBefore_congr _ _ (fun q => (pres q).1), runningMsBefore_cons, ← m1]
      · rw [i2, runningMsAfter_congr _ _ (fun q => (pres q).2.1), runningMsAfter_cons, ← m2]
      · rw [i3, m3, List.all_cons]
        have : ∀ q, ((lookupFP st1.entries q).ms_before.isNone
            && (lookupFP st1.entries q).ms_after.isNone)
            = ((lookupFP st.entries q).ms_before.isNone
               && (lookupFP st.entries q).ms_after.isNone) := by
          intro q
          rw [(pres q).1, (pres q).2.1]
        rw [list_all_ext t _ _ this]
        cases st.global_times <;>
          cases hb : (lookupFP st.entries f).ms_before.isNone <;>
          cases ha : (lookupFP st.entries f).ms_after.isNone <;> simp_all

/-- Keys survive the whole loop. -/
theorem exFold_resolve_key {rec : Recording} {n : ℕ} {st st' : ResolveSt}
    {fl : List Feat} (h : exFold (resolveStep rec n) st fl = .ok st') (q : Feat)
    (hq : (st.entries.lookup q).isSome) : (st'.entries.lookup q).isSome := by
  induction fl generalizing st with
  | nil => cases h; exact hq
  | cons f t ih =>
    unfold exFold at h
    split at h
    · exact absurd h (by simp)
    · rename_i st1 hst1
      exact ih h (resolveStep_key hst1 hq)

/-- The resolved window of entry `g` survives the part of the loop that does
not process `g`. -/
theorem exFold_resolve_nbefore_notin {rec : Recording} {n : ℕ} {st st' : ResolveSt}
    {fl : List Feat} (h : exFold (resolveStep rec n) st fl = .ok st') {g : Feat}
    (hg : g ∉ fl) :
    (lookupFP st'.entries g).nbefore = (lookupFP st.entries g).nbefore ∧
    (lookupFP st'.entries g).nafter = (lookupFP st.entries g).nafter := by
  induction fl generalizing st with
  | nil => cases h; exact ⟨rfl, rfl⟩
  | cons f t ih =>
    unfold exFold at h
    split at h
    · exact absurd h (by simp)
    · rename_i st1 hst1
      have hgf : g ≠ f := fun he => hg (by simp [he])
      obtain ⟨p1, p2⟩ := resolveStep_nbefore_ne hst1 hgf
      obtain ⟨q1, q2⟩ := ih h (fun hm => hg (by simp [hm]))
      exact ⟨q1.trans p1, q2.trans p2⟩

/-- Master window lemma: if the request list is `pre ++ g :: post` and `g`
does not occur in `post`, the resolved window of `g` is computed from its own
override when present, and otherwise from the running value left by `pre`. -/
theorem exFold_resolve_window {rec : Recording} {n : ℕ} {st st' : ResolveSt}
    {pre post : List Feat} {g : Feat}
    (h : exFold (resolveStep rec n) st (pre ++ g :: post) = .ok st')
    (hnotin : g ∉ post) (hkey : (st.entries.lookup g).isSome) :
    (lookupFP st'.entries g).nbefore
      = some (pyInt ((match (lookupFP st.entries g).ms_before with
                      | some v => v
                      | none => runningMsBefore st.entries st.msb pre)
          * rec.sampling_frequency / 1000)) ∧
    (lookupFP st'.entries g).nafter
      = some (pyInt ((match (lookupFP st.entries g).ms_after with
                      | some v => v
                      | none => runningMsAfter st.entries st.msa pre)
          * rec.sampling_frequency / 1000)) := by
  rw [exFold_append] at h
  split at h
  · exact absurd h (by simp)
  · rename_i st1 hst1
    unfold exFold at h
    split at h
    · exact absurd h (by simp)
    · rename_i st2 hst2
      have hkey1 : (st1.entries.lookup g).isSome := exFold_resolve_key hst1 g hkey
      obtain ⟨s1, s2, _⟩ := exFold_resolve_scalars hst1
      have pres := fun q => exFold_resolve_pres hst1 q
      obtain ⟨n1, n2⟩ := resolveStep_nbefore_self hst2 hkey1
      obtain ⟨k1, k2⟩ := exFold_resolve_nbefore_notin h hnotin
      refine ⟨?_, ?_⟩
      · rw [k1, n1, (pres g).1, s1]
      · rw [k2, n2, (pres g).2.1, s2]

theorem lookup_updEntries_isSome {es : List (Feat × FeatParams)} {k f : Feat}
    (g : FeatParams → FeatParams) :
    ((updEntries es k g).lookup f).isSome = (es.lookup f).isSome := by
  by_cases hf : f = k
  · subst hf
    rw [lookup_updEntries_eq]
    cases es.lookup f <;> simp
  · rw [lookup_updEntries_ne _ hf]

theorem mergeOverrides_lookup_isSome (base : List (Feat × FeatParams))
    (o : List (Feat × FeatOverride)) (f : Feat) :
    ((mergeOverrides base o).lookup f).isSome = (base.lookup f).isSome := by
  induction o generalizing base with
  | nil => rfl
  | cons ko t ih =>
    rw [show mergeOverrides base (ko :: t)
        = mergeOverrides (updEntries base ko.1 (fun p => applyOverride p ko.2)) t from rfl,
      ih, lookup_updEntries_isSome]

theorem one_table_lookup_isSome (f : Feat) :
    (one_feature_per_peak_params.lookup f).isSome := by
  cases f <;> rfl

/-- Destructuring a successful resolution run into its loop facts. -/
theorem resolve_ok_elim {rec : Recording} {n : ℕ} {fl : List Feat}
    {overrides : List (Feat × FeatOverride)} {msb msa : ℚ} {mode : Bool}
    {sm : Option String} {cfg : MyParams} {m : ℤ}
    (h : compute_features_resolve one_feature_per_peak_params n_chans_features_per_peak_params
      rec n fl overrides msb msa mode sm = .ok (cfg, m)) :
    ∃ fin : ResolveSt,
      exFold (resolveStep rec n)
        { entries := mergeOverrides one_feature_per_peak_params overrides, msb := msb,
          msa := msa, global_times := true, nbefore_max := 0, nafter_max := 0,
          chan_locs := none, nb_com_dims := none } fl = .ok fin
      ∧ cfg.entries = fin.entries
      ∧ cfg.global_times = fin.global_times
      ∧ cfg.one_feature_per_peak = mode
      ∧ cfg.nbefore = some fin.nbefore_max
      ∧ cfg.nafter = some fin.nafter_max
      ∧ cfg.nb_com_dims = fin.nb_com_dims
      ∧ cfg.chan_locs = fin.chan_locs
      ∧ m = max fin.nbefore_max fin.nafter_max := by
  unfold compute_features_resolve at h
  simp only [] at h
  rw [show (if one_feature_per_peak_params.isEmpty then n_chans_features_per_peak_params
      else one_feature_per_peak_params) = one_feature_per_peak_params from rfl] at h
  split at h
  · exact Except.noConfusion h
  · split at h
    · exact Except.noConfusion h
    · rename_i fin hfin
      injection h with h2
      injection h2 with ha hb
      subst ha
      subst hb
      exact ⟨fin, hfin, rfl, rfl, rfl, rfl, rfl, rfl, rfl, rfl⟩

/-- Claim C3 (amended): in the request `pre ++ g :: post`, when `g` carries no
window override of its own but some earlier feature does, `g` resolves to the
most recent override value left in the running `ms_before` / `ms_after`
variables by `pre` — not to the global default — and the shared-window flag
is cleared. -/
theorem c3_override_propagates
    (rec : Recording) (n : ℕ) (pre post : List Feat) (g : Feat)
    (overrides : List (Feat × FeatOverride)) (msb msa : ℚ) (mode : Bool)
    (sm : Option String)
    (hnotin : g ∉ post)
    (hovb : (lookupFP (mergeOverrides one_feature_per_peak_params overrides) g).ms_before
      = none)
    (hova : (lookupFP (mergeOverrides one_feature_per_peak_params overrides) g).ms_after
      = none)
    (hF : ∃ f ∈ pre,
      ((lookupFP (mergeOverrides one_feature_per_peak_params overrides) f).ms_before.isSome
       || (lookupFP (mergeOverrides one_feature_per_peak_params overrides) f).ms_after.isSome)
        = true)
    (hsucc : (compute_features_resolve one_feature_per_peak_params
        n_chans_features_per_peak_params rec n (pre ++ g :: post) overrides msb msa mode
        sm).isOk = true) :
    nbeforeOf (compute_features_resolve one_feature_per_peak_params
        n_chans_features_per_peak_params rec n (pre ++ g :: post) overrides msb msa mode sm) g
      = some (pyInt (runningMsBefore (mergeOverrides one_feature_per_peak_params overrides)
          msb pre * rec.sampling_frequency / 1000))
    ∧ nafterOf (compute_features_resolve one_feature_per_peak_params
        n_chans_features_per_peak_params rec n (pre ++ g :: post) overrides msb msa mode sm) g
      = some (pyInt (runningMsAfter (mergeOverrides one_feature_per_peak_params overrides)
          msa pre * rec.sampling_frequency / 1000))
    ∧ globalTimesOf (compute_features_resolve one_feature_per_peak_params
        n_chans_features_per_peak_params rec n (pre ++ g :: post) overrides msb msa mode sm)
      = some false := by
  cases hre : compute_features_resolve one_feature_per_peak_params
      n_chans_features_per_peak_params rec n (pre ++ g :: post) overrides msb msa mode sm with
  | error e =>
    rw [hre] at hsucc
    exact absurd hsucc (by simp [Except.isOk, Except.toBool])
  | ok pm =>
    obtain ⟨cfg, m⟩ := pm
    obtain ⟨fin, hfold, he, hgt, _, _, _, _, _, _⟩ := resolve_ok_elim hre
    have hkey : ((mergeOverrides one_feature_per_peak_params overrides).lookup g).isSome := by
      rw [mergeOverrides_lookup_isSome]
      exact one_table_lookup_isSome g
    obtain ⟨w1, w2⟩ := exFold_resolve_window hfold hnotin hkey
    obtain ⟨_, _, hg⟩ := exFold_resolve_scalars hfold
    refine ⟨?_, ?_, ?_⟩
    · show (lookupFP cfg.entries g).nbefore = _
      rw [he, w1]
      simp only [hovb]
    · show (lookupFP cfg.entries g).nafter = _
      rw [he, w2]
      simp only [hova]
    · show some cfg.global_times = some false
      rw [hgt, hg]
      obtain ⟨f, hfmem, hfov⟩ := hF
      have : List.all (pre ++ g :: post)
          (fun f => (lookupFP (mergeOverrides one_feature_per_peak_params overrides)
            f).ms_before.isNone
            && (lookupFP (mergeOverrides one_feature_per_peak_params overrides)
              f).ms_after.isNone) = false := by
        rw [List.all_eq_false]
        refine ⟨f, by simp [hfmem], ?_⟩
        rcases Bool.or_eq_true_iff.mp hfov with hcase | hcase <;>
          simp [Option.isNone_iff_eq_none, Option.isSome_iff_exists] at hcase ⊢ <;>
          obtain ⟨v, hv⟩ := hcase <;> simp [hv]
      rw [this]
      rfl

/-- Claim C5 (amended): with no window overrides in play, every requested
feature resolves its window to `int(ms * sampling_rate / 1000)` — truncation
toward zero (the floor, for the non-negative values that occur), not
round-to-nearest. -/
theorem c5_window_truncation
    (rec : Recording) (n : ℕ) (pre post : List Feat) (g : Feat)
    (overrides : List (Feat × FeatOverride)) (msb msa : ℚ) (mode : Bool)
    (sm : Option String)
    (hnotin : g ∉ post)
    (hz : ∀ f, (lookupFP (mergeOverrides one_feature_per_peak_params overrides) f).ms_before
        = none
      ∧ (lookupFP (mergeOverrides one_feature_per_peak_params overrides) f).ms_after = none)
    (hsucc : (compute_features_resolve one_feature_per_peak_params
        n_chans_features_per_peak_params rec n (pre ++ g :: post) overrides msb msa mode
        sm).isOk = true) :
    nbeforeOf (compute_features_resolve one_feature_per_peak_params
        n_chans_features_per_peak_params rec n (pre ++ g :: post) overrides msb msa mode sm) g
      = some (pyInt (msb * rec.sampling_frequency / 1000))
    ∧ nafterOf (compute_features_resolve one_feature_per_peak_params
        n_chans_features_per_peak_params rec n (pre ++ g :: post) overrides msb msa mode sm) g
      = some (pyInt (msa * rec.sampling_frequency / 1000))
    ∧ (0 ≤ msb * rec.sampling_frequency / 1000 →
        pyInt (msb * rec.sampling_frequency / 1000) = ⌊msb * rec.sampling_frequency / 1000⌋) := by
  cases hre : compute_features_resolve one_feature_per_peak_params
      n_chans_features_per_peak_params rec n (pre ++ g :: post) overrides msb msa mode sm with
  | error e =>
    rw [hre] at hsucc
    exact absurd hsucc (by simp [Except.isOk, Except.toBool])
  | ok pm =>
    obtain ⟨cfg, m⟩ := pm
    obtain ⟨fin, hfold, he, _, _, _, _, _, _, _⟩ := resolve_ok_elim hre
    have hkey : ((mergeOverrides one_feature_per_peak_params overrides).lookup g).isSome := by
      rw [mergeOverrides_lookup_isSome]
      exact one_table_lookup_isSome g
    obtain ⟨w1, w2⟩ := exFold_resolve_window hfold hnotin hkey
    refine ⟨?_, ?_, ?_⟩
    · show (lookupFP cfg.entries g).nbefore = _
      rw [he, w1]
      simp only [(hz g).1,
        runningMsBefore_of_none msb pre (fun f _ => (hz f).1)]
    · show (lookupFP cfg.entries g).nafter = _
      rw [he, w2]
      simp only [(hz g).2,
        runningMsAfter_of_none msa pre (fun f _ => (hz f).2)]
    · intro hq
      unfold pyInt
      rw [if_neg (not_lt.mpr hq)]

theorem valStep_true {known : List Feat} {f : Feat} (hmem : f ∈ known) :
    valStep known true f = .ok true := by
  unfold valStep
  rw [if_pos hmem]
  split_ifs <;> simp_all

theorem exFold_valStep_true {known : List Feat} (hk : ∀ f : Feat, f ∈ known)
    (fl : List Feat) : exFold (valStep known) true fl = .ok true := by
  induction fl with
  | nil => rfl
  | cons f t ih => rw [exFold_cons, valStep_true (hk f)]; exact ih

/-- The dependency assertion fires iff some occurrence of
`dist_com_vs_max_ptp_channel` has no occurrence of `com` strictly before it. -/
theorem validate_missing_iff {known : List Feat} (hk : ∀ f : Feat, f ∈ known)
    (fl : List Feat) :
    (validateFeatures known fl = .error missingComMsg
      ↔ ∃ pre post, fl = pre ++ Feat.dist_com_vs_max_ptp_channel :: post ∧ Feat.com ∉ pre) := by
  unfold validateFeatures
  induction fl with
  | nil =>
    simp only [exFold]
    constructor
    · intro h
      exact Except.noConfusion h
    · rintro ⟨pre, post, h, -⟩
      exact absurd h (by simp)
  | cons f t ih =>
    rw [exFold_cons]
    by_cases hf1 : f = Feat.com
    · subst hf1
      have hstep : valStep known false Feat.com = .ok true := by
        unfold valStep
        rw [if_pos (hk _)]
        rfl
      rw [hstep]
      simp only [exFold_valStep_true hk]
      constructor
      · intro h
        exact Except.noConfusion h
      · rintro ⟨pre, post, heq, hnpre⟩
        cases pre with
        | nil => simp at heq
        | cons a pre' =>
          rw [List.cons_append] at heq
          injection heq with h1 h2
          exact absurd (h1 ▸ List.mem_cons_self a pre') hnpre
    · by_cases hf2 : f = Feat.dist_com_vs_max_ptp_channel
      · subst hf2
        have hstep : valStep known false Feat.dist_com_vs_max_ptp_channel
            = .error missingComMsg := by
          unfold valStep
          rw [if_pos (hk _)]
          rfl
        rw [hstep]
        constructor
        · intro _
          exact ⟨[], t, rfl, by simp⟩
        · intro _
          rfl
      · have hstep : valStep known false f = .ok false := by
          unfold valStep
          rw [if_pos (hk _), if_neg hf1, if_neg hf2]
        rw [hstep]
        show exFold (valStep known) false t = .error missingComMsg ↔ _
        rw [ih]
        constructor
        · rintro ⟨pre, post, heq, hn⟩
          exact ⟨f :: pre, post, by rw [heq, List.cons_append],
            by simp only [List.mem_cons, not_or]
               exact ⟨fun hc => hf1 hc.symm, hn⟩⟩
        · rintro ⟨pre, post, heq, hn⟩
          cases pre with
          | nil =>
            injection heq with h1 h2
            exact absurd h1 hf2
          | cons a pre' =>
            rw [List.cons_append] at heq
            injection heq with h1 h2
            exact ⟨pre', post, h2, fun hm => hn (h1 ▸ List.mem_cons_of_mem a hm)⟩

/-- Claim C4 (amended): the dependency assertion fires iff some occurrence of
`dist_com_vs_max_ptp_channel` has no occurrence of `com` strictly before it
in the request list (its mere presence later does not help), and when it
fires the whole run fails during resolution with that error — before any
chunk is processed, whatever the chunking is. -/
theorem c4_dependency_check_order (fl : List Feat) :
    (validateFeatures (one_feature_per_peak_params.map Prod.fst) fl = .error missingComMsg
      ↔ ∃ pre post, fl = pre ++ Feat.dist_com_vs_max_ptp_channel :: post ∧ Feat.com ∉ pre)
    ∧ (∀ (rec : Recording) (peaks : List Peak) (overrides : List (Feat × FeatOverride))
        (msb msa : ℚ) (mode : Bool) (sm : Option String) (sqrtFn : ℚ → ℚ)
        (bounds : List ℤ),
        (∃ pre post, fl = pre ++ Feat.dist_com_vs_max_ptp_channel :: post ∧ Feat.com ∉ pre) →
        compute_features_from_peaks one_feature_per_peak_params
          n_chans_features_per_peak_params rec peaks fl overrides msb msa mode sm sqrtFn
          bounds = .error missingComMsg) := by
  constructor
  · exact validate_missing_iff mem_one_table_keys fl
  · intro rec peaks overrides msb msa mode sm sqrtFn bounds hdep
    have hkm : ∀ f : Feat,
        f ∈ (mergeOverrides one_feature_per_peak_params overrides).map Prod.fst := by
      intro f
      rw [mergeOverrides_fst]
      exact mem_one_table_keys f
    have hval : validateFeatures
        ((mergeOverrides one_feature_per_peak_params overrides).map Prod.fst) fl
        = .error missingComMsg := (validate_missing_iff hkm fl).mpr hdep
    have hres : compute_features_resolve one_feature_per_peak_params
        n_chans_features_per_peak_params rec peaks.length fl overrides msb msa mode sm
        = .error missingComMsg := by
      unfold compute_features_resolve
      simp only []
      rw [show (if one_feature_per_peak_params.isEmpty then n_chans_features_per_peak_params
          else one_feature_per_peak_params) = one_feature_per_peak_params from rfl, hval]
    unfold compute_features_from_peaks
    rw [hres]

/-- Witness: C4 applied at the one-element request `[dist_com_vs_max_ptp_channel]`. -/
theorem c4_dependency_check_order_witness :
    compute_features_from_peaks one_feature_per_peak_params n_chans_features_per_peak_params
      exRec [] [Feat.dist_com_vs_max_ptp_channel] [] 1 1 true none (fun q => q) [0, 4]
      = .error missingComMsg :=
  (c4_dependency_check_order [Feat.dist_com_vs_max_ptp_channel]).2 exRec [] [] 1 1 true none
    (fun q => q) [0, 4] ⟨[], [], rfl, by simp⟩

/-- Witness: C3 applied to `[amplitude, ptp]` with a 2 ms `ms_before` override
on `amplitude`: `ptp` resolves to the leaked 2 ms value. -/
theorem c3_override_propagates_witness :
    nbeforeOf (compute_features_resolve one_feature_per_peak_params
        n_chans_features_per_peak_params exRec 2 ([Feat.amplitude] ++ Feat.ptp :: [])
        [(Feat.amplitude, { ms_before := some 2 })] 1 1 true none) Feat.ptp
      = some (pyInt (runningMsBefore (mergeOverrides one_feature_per_peak_params
          [(Feat.amplitude, { ms_before := some 2 })]) 1 [Feat.amplitude]
          * exRec.sampling_frequency / 1000))
    ∧ nafterOf (compute_features_resolve one_feature_per_peak_params
        n_chans_features_per_peak_params exRec 2 ([Feat.amplitude] ++ Feat.ptp :: [])
        [(Feat.amplitude, { ms_before := some 2 })] 1 1 true none) Feat.ptp
      = some (pyInt (runningMsAfter (mergeOverrides one_feature_per_peak_params
          [(Feat.amplitude, { ms_before := some 2 })]) 1 [Feat.amplitude]
          * exRec.sampling_frequency / 1000))
    ∧ globalTimesOf (compute_features_resolve one_feature_per_peak_params
        n_chans_features_per_peak_params exRec 2 ([Feat.amplitude] ++ Feat.ptp :: [])
        [(Feat.amplitude, { ms_before := some 2 })] 1 1 true none) = some false :=
  c3_override_propagates exRec 2 [Feat.amplitude] [] Feat.ptp
    [(Feat.amplitude, { ms_before := some 2 })] 1 1 true none
    (by simp) rfl rfl ⟨Feat.amplitude, by simp, rfl⟩ rfl

/-- Witness: C5 applied to the request `[ptp]` at 1900 Hz with no overrides. -/
theorem c5_window_truncation_witness :
    nbeforeOf (compute_features_resolve one_feature_per_peak_params
        n_chans_features_per_peak_params exRec1900 2 ([] ++ Feat.ptp :: []) [] 1 1 true none)
        Feat.ptp
      = some (pyInt (1 * exRec1900.sampling_frequency / 1000))
    ∧ nafterOf (compute_features_resolve one_feature_per_peak_params
        n_chans_features_per_peak_params exRec1900 2 ([] ++ Feat.ptp :: []) [] 1 1 true none)
        Feat.ptp
      = some (pyInt (1 * exRec1900.sampling_frequency / 1000))
    ∧ (0 ≤ 1 * exRec1900.sampling_frequency / 1000 →
        pyInt (1 * exRec1900.sampling_frequency / 1000)
          = ⌊1 * exRec1900.sampling_frequency / 1000⌋) :=
  c5_window_truncation exRec1900 2 [] [] Feat.ptp [] 1 1 true none (by simp)
    (fun f => by cases f <;> exact ⟨rfl, rfl⟩) rfl

/-! Claim C1: re-chunking invariance.  First the engine is reduced to a
per-peak row function, then the chunk worker is reduced to the engine on the
absolute-position views of its peak slice, and finally the chunked runs are
assembled. -/

theorem zipWith_map_same {α β γ δ : Type} (f : β → γ → δ) (g : α → β) (h : α → γ)
    (l : List α) :
    List.zipWith f (l.map g) (l.map h) = l.map (fun x => f (g x) (h x)) := by
  induction l with
  | nil => rfl
  | cons a t ih => simp [ih]

theorem groupAssign_zero {α : Type} (chans : List ℕ) (init : List α) (f : ℕ → ℕ → α) :
    groupAssign 0 chans init f = init := rfl

theorem exFold_cons_ok {σ α : Type} {f : σ → α → Except String σ} {s s' : σ} {a : α}
    (t : List α) (h : f s a = .ok s') : exFold f s (a :: t) = exFold f s' t := by
  rw [exFold_cons, h]

theorem replicate_eq_map {α β : Type} (l : List α) (r : β) :
    List.replicate l.length r = l.map (fun _ => r) := by
  induction l with
  | nil => rfl
  | cons a t ih => rw [List.map_cons, List.length_cons, List.replicate_succ, ih]

theorem writeVals_perChannel_mat {numChans dims : ℕ} {cfg : MyParams} {f : Feat}
    {rows : List (List (List ℚ))} {m : List (List ℚ)} {fidx : ℕ} {wfb : Bool}
    (hmode : cfg.one_feature_per_peak = false)
    (hm : m.length = 0 ∨ (m.headD []).length = numChans) :
    writeVals numChans dims cfg f { out := .perChannel rows, fidx := fidx, wfNone := wfb }
        (.mat m)
      = .ok { out := .perChannel (List.zipWith
                  (fun r3 mr => r3.mapIdx (fun c frow => frow.set fidx (mr.getD c 0)))
                  rows m),
              fidx := fidx + 1, wfNone := false } := by
  unfold writeVals
  simp only [hmode, Bool.false_eq_true, reduceIte]
  rw [if_pos hm]

/-- Row-level semantics of one per-channel feature iteration for the two
features the per-channel table supports. -/
def row3Step (numChans : ℕ) (cfg : MyParams) (p : PeakView)
    (acc : List (List ℚ) × ℕ × Bool) (f : Feat) : List (List ℚ) × ℕ × Bool :=
  let w := p.win (selNb cfg f acc.2.2) (selNa cfg f acc.2.2)
  let mr : List ℚ :=
    match f with
    | Feat.amplitude =>
      match (lookupFP cfg.entries f).peak_sign with
      | some Sign.neg => (List.range numChans).map (fun c => qMin (colOf w c))
      | some Sign.pos => (List.range numChans).map (fun c => qMax (colOf w c))
      | _ => []
    | Feat.ptp => (List.range numChans).map (fun c => qPtp (colOf w c))
    | _ => []
  (acc.1.mapIdx (fun c frow => frow.set acc.2.1 (mr.getD c 0)), acc.2.1 + 1, false)

theorem row3Step_snd (numChans : ℕ) (cfg : MyParams) (p : PeakView)
    (acc : List (List ℚ) × ℕ × Bool) (f : Feat) :
    (row3Step numChans cfg p acc f).2 = (acc.2.1 + 1, false) := rfl

/-- One engine iteration in per-channel mode for a supported feature. -/
theorem engineStep_perChannel (numChans : ℕ) (sqrtFn : ℚ → ℚ) (ps : List PeakView)
    (comStart dims : ℕ) (cfg : MyParams) (f : Feat) (g3 : PeakView → List (List ℚ))
    (fidx : ℕ) (wfb : Bool) (hmode : cfg.one_feature_per_peak = false)
    (hf : f = Feat.ptp ∨ (f = Feat.amplitude ∧
      ((lookupFP cfg.entries Feat.amplitude).peak_sign = some Sign.neg ∨
       (lookupFP cfg.entries Feat.amplitude).peak_sign = some Sign.pos) ∧
      (selNa cfg Feat.amplitude wfb + selNb cfg Feat.amplitude wfb).toNat ≠ 0)) :
    engineStep numChans sqrtFn ps comStart dims cfg
        { out := .perChannel (ps.map g3), fidx := fidx, wfNone := wfb } f
      = .ok { out := .perChannel (ps.map (fun p =>
                  (row3Step numChans cfg p (g3 p, fidx, wfb) f).1)),
              fidx := fidx + 1, wfNone := false } := by
  rcases hf with hf | ⟨hf, hsgn, hwl⟩
  · subst hf
    simp only [engineStep, hmode, Bool.false_eq_true, reduceIte]
    rw [writeVals_perChannel_mat hmode (by
      cases ps with
      | nil => exact Or.inl rfl
      | cons a t => exact Or.inr (by simp))]
    simp only [List.map_map, zipWith_map_same]
    rfl
  · subst hf
    rcases hsgn with hs | hs <;>
      · simp only [engineStep, hmode, Bool.false_eq_true, reduceIte, hs, hwl]
        rw [writeVals_perChannel_mat hmode (by
          cases ps with
          | nil => exact Or.inl rfl
          | cons a t => exact Or.inr (by simp))]
        simp only [List.map_map, zipWith_map_same]
        simp only [row3Step, hs, Function.comp]

/-- One engine iteration in per-channel mode for `amplitude` with sign
`both`: the `np.abs(wf, axis=1)` TypeError. -/
theorem engineStep_perChannel_both (numChans : ℕ) (sqrtFn : ℚ → ℚ) (ps : List PeakView)
    (comStart dims : ℕ) (cfg : MyParams) (st : EngineSt)
    (hmode : cfg.one_feature_per_peak = false)
    (hs : (lookupFP cfg.entries Feat.amplitude).peak_sign = some Sign.both)
    (hw : (selNa cfg Feat.amplitude st.wfNone + selNb cfg Feat.amplitude st.wfNone).toNat
      ≠ 0) :
    engineStep numChans sqrtFn ps comStart dims cfg st Feat.amplitude
      = .error absAxisMsg := by
  simp only [engineStep, hmode, Bool.false_eq_true, reduceIte, hs, hw]

/-- The whole feature loop in per-channel mode, supported features, no
`both` sign. -/
theorem engine_fold_perChannel (numChans : ℕ) (sqrtFn : ℚ → ℚ) (ps : List PeakView)
    (comStart dims : ℕ) (cfg : MyParams) (fl : List Feat)
    (hmode : cfg.one_feature_per_peak = false)
    (hfl : ∀ f ∈ fl, f = Feat.ptp ∨ f = Feat.amplitude)
    (hsgn : Feat.amplitude ∈ fl →
      (lookupFP cfg.entries Feat.amplitude).peak_sign = some Sign.neg ∨
      (lookupFP cfg.entries Feat.amplitude).peak_sign = some Sign.pos)
    (hwb : ∀ b, (selNa cfg Feat.amplitude b + selNb cfg Feat.amplitude b).toNat ≠ 0)
    (g3 : PeakView → List (List ℚ)) (fidx : ℕ) (wfb : Bool) :
    exFold (engineStep numChans sqrtFn ps comStart dims cfg)
        { out := .perChannel (ps.map g3), fidx := fidx, wfNone := wfb } fl
      = .ok { out := .perChannel (ps.map (fun p =>
                  (fl.foldl (row3Step numChans cfg p) (g3 p, fidx, wfb)).1)),
              fidx := fidx + fl.length,
              wfNone := wfb && fl.isEmpty } := by
  induction fl generalizing g3 fidx wfb with
  | nil =>
    simp [exFold]
  | cons f t ih =>
    have hstep : engineStep numChans sqrtFn ps comStart dims cfg
        { out := .perChannel (ps.map g3), fidx := fidx, wfNone := wfb } f
        = .ok { out := .perChannel (ps.map (fun p =>
                    (row3Step numChans cfg p (g3 p, fidx, wfb) f).1)),
                fidx := fidx + 1, wfNone := false } := by
      apply engineStep_perChannel numChans sqrtFn ps comStart dims cfg f g3 fidx wfb hmode
      rcases hfl f (List.mem_cons_self f t) with hf | hf
      · exact Or.inl hf
      · subst hf
        exact Or.inr ⟨rfl, hsgn (List.mem_cons_self _ t), hwb wfb⟩
    rw [exFold_cons_ok t hstep]
    have ih2 := ih (fun q hq => hfl q (List.mem_cons_of_mem f hq))
      (fun hm => hsgn (List.mem_cons_of_mem f hm))
      (fun p => (row3Step numChans cfg p (g3 p, fidx, wfb) f).1) (fidx + 1) false
    rw [ih2]
    have hrows : ∀ p, (t.foldl (row3Step numChans cfg p)
          ((row3Step numChans cfg p (g3 p, fidx, wfb) f).1, fidx + 1, false)).1
        = ((f :: t).foldl (row3Step numChans cfg p) (g3 p, fidx, wfb)).1 := by
      intro p
      rw [List.foldl_cons]
      rfl
    simp only [List.length_cons, List.isEmpty_cons, Bool.and_false, Bool.false_and,
      Nat.add_assoc, Nat.add_comm 1]
    rw [List.map_congr_left (fun p _ => hrows p)]

/-- The whole feature loop in per-channel mode errors when `amplitude` is
requested with sign `both`. -/
theorem engine_fold_perChannel_both (numChans : ℕ) (sqrtFn : ℚ → ℚ) (ps : List PeakView)
    (comStart dims : ℕ) (cfg : MyParams) (fl : List Feat)
    (hmode : cfg.one_feature_per_peak = false)
    (hfl : ∀ f ∈ fl, f = Feat.ptp ∨ f = Feat.amplitude)
    (hs : (lookupFP cfg.entries Feat.amplitude).peak_sign = some Sign.both)
    (hwb : ∀ b, (selNa cfg Feat.amplitude b + selNb cfg Feat.amplitude b).toNat ≠ 0)
    (hmem : Feat.amplitude ∈ fl)
    (g3 : PeakView → List (List ℚ)) (fidx : ℕ) (wfb : Bool) :
    exFold (engineStep numChans sqrtFn ps comStart dims cfg)
        { out := .perChannel (ps.map g3), fidx := fidx, wfNone := wfb } fl
      = .error absAxisMsg := by
  induction fl generalizing g3 fidx wfb with
  | nil => exact absurd hmem (List.not_mem_nil _)
  | cons f t ih =>
    rcases hfl f (List.mem_cons_self f t) with hf | hf
    · have hmt : Feat.amplitude ∈ t := by
        rcases List.mem_cons.mp hmem with he | he
        · rw [← he] at hf
          exact absurd hf (by simp)
        · exact he
      have hstep := engineStep_perChannel numChans sqrtFn ps comStart dims cfg f g3 fidx wfb
        hmode (Or.inl hf)
      rw [exFold_cons_ok t hstep]
      exact ih (fun q hq => hfl q (List.mem_cons_of_mem f hq)) hmt _ (fidx + 1) false
    · subst hf
      rw [exFold_cons,
        engineStep_perChannel_both numChans sqrtFn ps comStart dims cfg _ hmode hs (hwb wfb)]

/-- The feature engine in per-channel mode on supported requests. -/
theorem compute_features_perChannel_ok (numChans : ℕ) (sqrtFn : ℚ → ℚ)
    (ps : List PeakView) (fl : List Feat) (cfg : MyParams)
    (hmode : cfg.one_feature_per_peak = false)
    (hfl : ∀ f ∈ fl, f = Feat.ptp ∨ f = Feat.amplitude)
    (hsgn : Feat.amplitude ∈ fl →
      (lookupFP cfg.entries Feat.amplitude).peak_sign = some Sign.neg ∨
      (lookupFP cfg.entries Feat.amplitude).peak_sign = some Sign.pos)
    (hwb : ∀ b, (selNa cfg Feat.amplitude b + selNb cfg Feat.amplitude b).toNat ≠ 0) :
    compute_features numChans sqrtFn ps fl cfg
      = .ok (.perChannel (ps.map (fun p =>
          (fl.foldl (row3Step numChans cfg p)
            (List.replicate numChans (List.replicate fl.length 0), 0, true)).1))) := by
  unfold compute_features
  simp only [hmode, Bool.false_eq_true, reduceIte]
  rw [replicate_eq_map ps (List.replicate numChans (List.replicate fl.length 0)),
    engine_fold_perChannel numChans sqrtFn ps (fl.indexOf Feat.com)
      (cfg.nb_com_dims.getD 0) cfg fl hmode hfl hsgn hwb _ 0 true]

/-- The feature engine in per-channel mode with the `both` sign: TypeError. -/
theorem compute_features_perChannel_err (numChans : ℕ) (sqrtFn : ℚ → ℚ)
    (ps : List PeakView) (fl : List Feat) (cfg : MyParams)
    (hmode : cfg.one_feature_per_peak = false)
    (hfl : ∀ f ∈ fl, f = Feat.ptp ∨ f = Feat.amplitude)
    (hs : (lookupFP cfg.entries Feat.amplitude).peak_sign = some Sign.both)
    (hwb : ∀ b, (selNa cfg Feat.amplitude b + selNb cfg Feat.amplitude b).toNat ≠ 0)
    (hmem : Feat.amplitude ∈ fl) :
    compute_features numChans sqrtFn ps fl cfg = .error absAxisMsg := by
  unfold compute_features
  simp only [hmode, Bool.false_eq_true, reduceIte]
  rw [replicate_eq_map ps (List.replicate numChans (List.replicate fl.length 0)),
    engine_fold_perChannel_both numChans sqrtFn ps (fl.indexOf Feat.com)
      (cfg.nb_com_dims.getD 0) cfg fl hmode hfl hs hwb hmem _ 0 true]

/-! ### Claim C1: the chunk layer -/

theorem findIdx_all_true {α : Type} (p : α → Bool) (l : List α)
    (h : ∀ x ∈ l, p x = true) : l.findIdx p = 0 := by
  cases l with
  | nil => rfl
  | cons a t => rw [List.findIdx_cons, h a (List.mem_cons_self a t), cond_true]

theorem findIdx_all_false {α : Type} (p : α → Bool) (l : List α)
    (h : ∀ x ∈ l, p x = false) : l.findIdx p = l.length := by
  induction l with
  | nil => rfl
  | cons a t ih =>
    rw [List.findIdx_cons, h a (List.mem_cons_self a t), cond_false,
      ih (fun x hx => h x (List.mem_cons_of_mem a hx)), List.length_cons]

theorem ssLeft_zero_of_le {k : List ℤ} {a : ℤ} (h : ∀ x ∈ k, a ≤ x) : ssLeft k a = 0 :=
  findIdx_all_true _ _ (fun x hx => decide_eq_true (h x hx))

/-- The two `np.searchsorted` cuts on a sorted key list slice out exactly the
elements whose key lies in `[a, b)` (lines 203-210). -/
theorem sorted_slice {α : Type} (key : α → ℤ) (ps : List α) (a b : ℤ)
    (hs : List.Pairwise (fun p q => key p ≤ key q) ps) (hab : a ≤ b) :
    (ps.drop (ssLeft (ps.map key) a)).take
        (ssLeft (ps.map key) b - ssLeft (ps.map key) a)
      = ps.filter (fun p => decide (a ≤ key p) && decide (key p < b)) := by
  induction ps with
  | nil => rfl
  | cons p t ih =>
    rw [List.pairwise_cons] at hs
    obtain ⟨hall, hst⟩ := hs
    by_cases hpa : a ≤ key p
    · have h0 : ssLeft ((p :: t).map key) a = 0 := by
        apply ssLeft_zero_of_le
        intro x hx
        rcases List.mem_cons.mp (by rwa [List.map_cons] at hx) with he | he
        · exact he ▸ hpa
        · obtain ⟨q, hq, hqx⟩ := List.mem_map.mp he
          exact hqx ▸ le_trans hpa (hall q hq)
      by_cases hpb : key p < b
      · have h0t : ssLeft (t.map key) a = 0 := by
          apply ssLeft_zero_of_le
          intro x hx
          obtain ⟨q, hq, hqx⟩ := List.mem_map.mp hx
          exact hqx ▸ le_trans hpa (hall q hq)
        have h1 : ssLeft ((p :: t).map key) b = ssLeft (t.map key) b + 1 := by
          unfold ssLeft
          rw [List.map_cons, List.findIdx_cons, decide_eq_false (not_le.mpr hpb), cond_false]
        have ih2 := ih hst
        rw [h0t, List.drop_zero, Nat.sub_zero] at ih2
        rw [h0, h1, List.drop_zero, Nat.sub_zero, List.take_succ_cons, List.filter_cons,
          decide_eq_true hpa, decide_eq_true hpb]
        simp only [Bool.and_self, reduceIte]
        rw [ih2]
      · have h1 : ssLeft ((p :: t).map key) b = 0 := by
          apply ssLeft_zero_of_le
          intro x hx
          rcases List.mem_cons.mp (by rwa [List.map_cons] at hx) with he | he
          · exact he ▸ not_lt.mp hpb
          · obtain ⟨q, hq, hqx⟩ := List.mem_map.mp he
            exact hqx ▸ le_trans (not_lt.mp hpb) (hall q hq)
        rw [h0, h1, Nat.sub_self, List.take_zero]
        symm
        apply List.filter_eq_nil_iff.mpr
        intro q hq
        have hbq : b ≤ key q := by
          rcases List.mem_cons.mp hq with he | he
          · exact he ▸ not_lt.mp hpb
          · exact le_trans (not_lt.mp hpb) (hall q he)
        simp [decide_eq_false (not_lt.mpr hbq)]
    · have h0 : ssLeft ((p :: t).map key) a = ssLeft (t.map key) a + 1 := by
        unfold ssLeft
        rw [List.map_cons, List.findIdx_cons, decide_eq_false hpa, cond_false]
      have h1 : ssLeft ((p :: t).map key) b = ssLeft (t.map key) b + 1 := by
        unfold ssLeft
        rw [List.map_cons, List.findIdx_cons,
          decide_eq_false (fun hc => hpa (le_trans hab hc)), cond_false]
      rw [h0, h1, List.drop_succ_cons, Nat.add_sub_add_right, List.filter_cons,
        decide_eq_false hpa]
      simp only [Bool.false_and, reduceIte]
      exact ih hst

/-- View of one peak through the whole zero-padded recording. -/
def absViewOf (rec : Recording) (p : Peak) : PeakView :=
  viewOfLocalPeak (readPad rec) rec.num_channels p.sample_ind p.channel_ind p.amplitude

/-- The peaks whose sample index falls in the chunk `[a, b)`. -/
def sliceOf (peaks : List Peak) (a b : ℤ) : List Peak :=
  peaks.filter (fun p => decide (a ≤ p.sample_ind) && decide (p.sample_ind < b))

/-- Rebasing a peak into a margin-padded chunk buffer and extracting windows
there reads exactly the same padded samples as the unchunked view: the local
index `sample_ind - (start_frame - margin)` of line 212 undoes the buffer
offset of `get_chunk_with_margin`. -/
theorem viewOfLocalPeak_chunk (rec : Recording) (a m s : ℤ) (ch : ℕ) (amp : ℚ) :
    viewOfLocalPeak (chunkTraces rec a m) rec.num_channels (s - (a - m)) ch amp
      = viewOfLocalPeak (readPad rec) rec.num_channels s ch amp := by
  unfold viewOfLocalPeak
  have hwin : (fun nb na => extractWin (chunkTraces rec a m) rec.num_channels nb na
        (s - (a - m)))
      = fun nb na => extractWin (readPad rec) rec.num_channels nb na s := by
    funext nb na
    unfold extractWin
    refine List.map_congr_left (fun o _ => ?_)
    refine List.map_congr_left (fun c _ => ?_)
    show readPad rec (a - m + (s - (a - m) + o)) c = readPad rec (s + o) c
    have harg : a - m + (s - (a - m) + o) = s + o := by ring
    rw [harg]
  rw [hwin]

/-- The chunk worker equals the feature engine run on the absolute views of
the peaks of the chunk: segment slicing keeps everything (single-segment
input), sample slicing keeps exactly `[a, b)`, and rebasing is transparent. -/
theorem chunk_eval (rec : Recording) (peaks : List Peak) (m : ℤ) (fl : List Feat)
    (cfg : MyParams) (sqrtFn : ℚ → ℚ) (a b : ℤ)
    (hseg : ∀ p ∈ peaks, p.segment_ind = 0)
    (hsorted : List.Pairwise (fun p q => p.sample_ind ≤ q.sample_ind) peaks)
    (hab : a ≤ b) :
    compute_features_chunk rec peaks m fl cfg sqrtFn 0 a b
      = compute_features rec.num_channels sqrtFn ((sliceOf peaks a b).map (absViewOf rec))
          fl cfg := by
  unfold compute_features_chunk
  simp only []
  have hi0 : ssLeftN (peaks.map (fun p => p.segment_ind)) 0 = 0 :=
    findIdx_all_true _ _ (fun x _ => by simp)
  have hi1 : ssLeftN (peaks.map (fun p => p.segment_ind)) (0 + 1) = peaks.length := by
    unfold ssLeftN
    have hfalse : ∀ x ∈ peaks.map (fun p => p.segment_ind), decide (0 + 1 ≤ x) = false := by
      intro x hx
      obtain ⟨p, hp, hpx⟩ := List.mem_map.mp hx
      rw [← hpx, hseg p hp]
      rfl
    rw [findIdx_all_false _ _ hfalse, List.length_map]
  rw [hi0, hi1, List.drop_zero, Nat.sub_zero, List.take_length,
    sorted_slice (fun p => p.sample_ind) peaks a b hsorted hab]
  rw [show (fun (p : Peak) => viewOfLocalPeak (chunkTraces rec a m) rec.num_channels
        (p.sample_ind - (a - m)) p.channel_ind p.amplitude) = absViewOf rec from
    funext (fun p => viewOfLocalPeak_chunk rec a m p.sample_ind p.channel_ind p.amplitude)]
  rfl

theorem exMap_ok {α β : Type} (f : α → Except String β) (g : α → β) (l : List α)
    (h : ∀ x ∈ l, f x = .ok (g x)) : exMap f l = .ok (l.map g) := by
  induction l with
  | nil => rfl
  | cons a t ih =>
    unfold exMap
    rw [h a (List.mem_cons_self a t), ih (fun x hx => h x (List.mem_cons_of_mem a hx))]
    rfl

theorem flatten_map_map {α β : Type} (f : α → β) (L : List (List α)) :
    (L.map (List.map f)).flatten = L.flatten.map f := by
  induction L with
  | nil => rfl
  | cons l t ih => simp only [List.map_cons, List.flatten_cons, List.map_append, ih]

/-- `np.concatenate` over per-chunk `(peaks × channels × features)` blocks. -/
theorem npConcat_perChannel (r0 : List (List (List ℚ)))
    (rs : List (List (List (List ℚ)))) :
    npConcat (FeatOut.perChannel r0 :: rs.map FeatOut.perChannel)
      = .ok (.perChannel (r0 ++ rs.flatten)) := by
  induction rs generalizing r0 with
  | nil => simp [npConcat, exFold]
  | cons r t ih =>
    rw [List.map_cons,
      show npConcat (FeatOut.perChannel r0 :: FeatOut.perChannel r :: t.map FeatOut.perChannel)
        = npConcat (FeatOut.perChannel (r0 ++ r) :: t.map FeatOut.perChannel) from rfl,
      ih (r0 ++ r), List.flatten_cons, List.append_assoc]

theorem npConcat_map_perChannel {α : Type} (x : α) (t : List α)
    (g : α → List (List (List ℚ))) :
    npConcat ((x :: t).map (fun y => FeatOut.perChannel (g y)))
      = .ok (.perChannel ((x :: t).map g).flatten) := by
  rw [List.map_cons,
    show (t.map fun y => FeatOut.perChannel (g y)) = (t.map g).map FeatOut.perChannel from by
      rw [List.map_map]; rfl,
    npConcat_perChannel, List.map_cons, List.flatten_cons]

/-- Consecutive chunk bounds are ordered. -/
theorem chunkPairs_le : ∀ {bounds : List ℤ}, List.Chain' (· ≤ ·) bounds →
    ∀ {se : ℤ × ℤ}, se ∈ chunkPairs bounds → se.1 ≤ se.2
  | [], _, _, hse => absurd hse (by simp [chunkPairs])
  | [_], _, _, hse => absurd hse (by simp [chunkPairs])
  | x :: y :: rest, hchain, se, hse => by
    rw [List.chain'_cons] at hchain
    rw [show chunkPairs (x :: y :: rest) = (x, y) :: chunkPairs (y :: rest) from rfl] at hse
    rcases List.mem_cons.mp hse with he | he
    · subst he
      exact hchain.1
    · exact chunkPairs_le hchain.2 he

/-- A `Chain'`-ordered bound list is dominated by its last element. -/
theorem chain_le_getLastD : ∀ (x : ℤ) (l : List ℤ), List.Chain' (· ≤ ·) (x :: l) →
    x ≤ l.getLastD x
  | _, [], _ => le_refl _
  | x, y :: l, h => by
    rw [List.chain'_cons] at h
    rw [List.getLastD_cons]
    exact le_trans h.1 (chain_le_getLastD y l h.2)

/-- Concatenating the slices of consecutive sorted chunks gives the slice of
the whole range. -/
theorem sliceOf_split (peaks : List Peak) (a b c : ℤ)
    (hsorted : List.Pairwise (fun p q => p.sample_ind ≤ q.sample_ind) peaks)
    (hab : a ≤ b) (hbc : b ≤ c) :
    sliceOf peaks a b ++ sliceOf peaks b c = sliceOf peaks a c := by
  induction peaks with
  | nil => rfl
  | cons p t ih =>
    rw [List.pairwise_cons] at hsorted
    obtain ⟨hall, hst⟩ := hsorted
    unfold sliceOf at ih ⊢
    rw [List.filter_cons, List.filter_cons, List.filter_cons]
    by_cases hb : p.sample_ind < b
    · have hc : p.sample_ind < c := lt_of_lt_of_le hb hbc
      rw [decide_eq_true hb, decide_eq_true hc, decide_eq_false (not_le.mpr hb)]
      by_cases ha : a ≤ p.sample_ind
      · rw [decide_eq_true ha]
        simp only [Bool.true_and, Bool.and_false, Bool.and_true, Bool.and_self,
          Bool.false_eq_true, reduceIte, List.cons_append]
        rw [ih hst]
      · rw [decide_eq_false ha]
        simp only [Bool.false_and, Bool.and_false, Bool.false_eq_true, reduceIte]
        exact ih hst
    · have hfb : t.filter
          (fun q => decide (a ≤ q.sample_ind) && decide (q.sample_ind < b)) = [] := by
        apply List.filter_eq_nil_iff.mpr
        intro q hq
        have hbq : b ≤ q.sample_ind := le_trans (not_lt.mp hb) (hall q hq)
        simp [decide_eq_false (not_lt.mpr hbq)]
      have hba : b ≤ p.sample_ind := not_lt.mp hb
      rw [decide_eq_false hb, decide_eq_true hba]
      by_cases hc : p.sample_ind < c
      · have hap : a ≤ p.sample_ind := le_trans hab hba
        rw [decide_eq_true hc, decide_eq_true hap]
        simp only [Bool.and_false, Bool.true_and, Bool.and_true, Bool.and_self,
          Bool.false_eq_true, reduceIte]
        rw [hfb, List.nil_append, ← ih hst, hfb, List.nil_append]
      · rw [decide_eq_false hc]
        simp only [Bool.and_false, Bool.false_eq_true, reduceIte]
        exact ih hst

/-- Flattening the per-chunk slices over consecutive bounds yields the slice
from the first bound to the last. -/
theorem chunkPairs_flatten (peaks : List Peak)
    (hsorted : List.Pairwise (fun p q => p.sample_ind ≤ q.sample_ind) peaks) :
    ∀ (x : ℤ) (rest : List ℤ), List.Chain' (· ≤ ·) (x :: rest) →
      ((chunkPairs (x :: rest)).map (fun se => sliceOf peaks se.1 se.2)).flatten
        = sliceOf peaks x (rest.getLastD x)
  | x, [], _ => by
    rw [show chunkPairs [x] = [] from rfl, List.map_nil, List.flatten_nil]
    symm
    apply List.filter_eq_nil_iff.mpr
    intro q _
    simp only [Bool.and_eq_true, decide_eq_true_eq, not_and, not_lt]
    intro h
    exact h
  | x, y :: rest, hchain => by
    rw [List.chain'_cons] at hchain
    rw [show chunkPairs (x :: y :: rest) = (x, y) :: chunkPairs (y :: rest) from rfl,
      List.map_cons, List.flatten_cons, List.getLastD_cons,
      chunkPairs_flatten peaks hsorted y rest hchain.2]
    exact sliceOf_split peaks x y (rest.getLastD y) hsorted hchain.1
      (chain_le_getLastD y rest hchain.2)

/-- The slice `[0, num_samples)` keeps every in-range peak. -/
theorem sliceOf_all (peaks : List Peak) (N : ℤ)
    (hrange : ∀ p ∈ peaks, 0 ≤ p.sample_ind ∧ p.sample_ind < N) :
    sliceOf peaks 0 N = peaks := by
  unfold sliceOf
  apply List.filter_eq_self.mpr
  intro p hp
  obtain ⟨h1, h2⟩ := hrange p hp
  rw [decide_eq_true h1, decide_eq_true h2, Bool.and_self]

/-- Per-channel-mode output block of one input peak, read through the whole
zero-padded recording. -/
def absRow3Of (rec : Recording) (cfg : MyParams) (fl : List Feat) (p : Peak) :
    List (List ℚ) :=
  (fl.foldl (row3Step rec.num_channels cfg (absViewOf rec p))
    (List.replicate rec.num_channels (List.replicate fl.length 0), 0, true)).1

/-- The chunked pipeline in per-channel mode, supported features, resolved
sign `neg` or `pos`, nonempty windows: one `absRow3Of` block per input peak,
in input order. -/
theorem chunked_pipeline_perChannel (rec : Recording) (peaks : List Peak)
    (fl : List Feat) (overrides : List (Feat × FeatOverride)) (msb msa : ℚ)
    (sm : Option String) (sqrtFn : ℚ → ℚ) (bounds : List ℤ) (cfg : MyParams) (m : ℤ)
    (hres : compute_features_resolve one_feature_per_peak_params
        n_chans_features_per_peak_params rec peaks.length fl overrides msb msa false sm
      = .ok (cfg, m))
    (hseg : ∀ p ∈ peaks, p.segment_ind = 0)
    (hsorted : List.Pairwise (fun p q => p.sample_ind ≤ q.sample_ind) peaks)
    (hrange : ∀ p ∈ peaks, 0 ≤ p.sample_ind ∧ p.sample_ind < rec.num_samples)
    (hchain : List.Chain' (· ≤ ·) bounds)
    (hhead : bounds.head? = some 0)
    (hlast : bounds.getLast? = some rec.num_samples)
    (hlen2 : 2 ≤ bounds.length)
    (hfl : ∀ f ∈ fl, f = Feat.ptp ∨ f = Feat.amplitude)
    (hsgn : (lookupFP cfg.entries Feat.amplitude).peak_sign = some Sign.neg ∨
      (lookupFP cfg.entries Feat.amplitude).peak_sign = some Sign.pos)
    (hwb : ∀ b, (selNa cfg Feat.amplitude b + selNb cfg Feat.amplitude b).toNat ≠ 0) :
    compute_features_from_peaks one_feature_per_peak_params n_chans_features_per_peak_params
        rec peaks fl overrides msb msa false sm sqrtFn bounds
      = .ok (.perChannel (peaks.map (absRow3Of rec cfg fl))) := by
  have hmode : cfg.one_feature_per_peak = false := by
    obtain ⟨fin, -, -, -, h4, -, -, -, -, -⟩ := resolve_ok_elim hres
    exact h4
  cases bounds with
  | nil => simp at hlen2
  | cons b0 rest0 =>
    cases rest0 with
    | nil => simp at hlen2
    | cons b1 rest =>
      rw [List.head?_cons] at hhead
      injection hhead with hb0
      subst hb0
      rw [List.getLast?_cons_cons] at hlast
      have hlastv : (b1 :: rest).getLastD 0 = rec.num_samples := by
        rw [List.getLastD_eq_getLast?, hlast]
        rfl
      have hchunk : ∀ se ∈ chunkPairs ((0 : ℤ) :: b1 :: rest),
          compute_features_chunk rec peaks m fl cfg sqrtFn 0 se.1 se.2
            = .ok (.perChannel ((sliceOf peaks se.1 se.2).map (absRow3Of rec cfg fl))) := by
        intro se hse
        rw [chunk_eval rec peaks m fl cfg sqrtFn se.1 se.2 hseg hsorted
            (chunkPairs_le hchain hse),
          compute_features_perChannel_ok rec.num_channels sqrtFn _ fl cfg hmode hfl
            (fun _ => hsgn) hwb,
          List.map_map]
        rfl
      unfold compute_features_from_peaks
      rw [hres]
      show (match exMap (fun se => compute_features_chunk rec peaks m fl cfg sqrtFn 0
            se.1 se.2) (chunkPairs ((0 : ℤ) :: b1 :: rest)) with
        | Except.error e => Except.error e
        | Except.ok outs => npConcat outs)
          = Except.ok (FeatOut.perChannel (peaks.map (absRow3Of rec cfg fl)))
      rw [exMap_ok _ _ _ hchunk]
      show npConcat ((chunkPairs ((0 : ℤ) :: b1 :: rest)).map (fun se =>
          FeatOut.perChannel ((sliceOf peaks se.1 se.2).map (absRow3Of rec cfg fl))))
        = Except.ok (FeatOut.perChannel (peaks.map (absRow3Of rec cfg fl)))
      rw [show chunkPairs ((0 : ℤ) :: b1 :: rest)
            = ((0 : ℤ), b1) :: chunkPairs (b1 :: rest) from rfl,
        npConcat_map_perChannel ((0 : ℤ), b1) (chunkPairs (b1 :: rest)),
        show (((0 : ℤ), b1) :: chunkPairs (b1 :: rest))
            = chunkPairs ((0 : ℤ) :: b1 :: rest) from rfl,
        show (fun (se : ℤ × ℤ) => (sliceOf peaks se.1 se.2).map (absRow3Of rec cfg fl))
            = (List.map (absRow3Of rec cfg fl)
                ∘ fun (se : ℤ × ℤ) => sliceOf peaks se.1 se.2) from rfl,
        ← List.map_map, flatten_map_map,
        chunkPairs_flatten peaks hsorted 0 (b1 :: rest) hchain, hlastv,
        sliceOf_all peaks rec.num_samples hrange]

end FeaturesFromPeaks
